import Mathlib

/-!
# Web crawler (cmd/web-crawler/main.go)

A shallow embedding of `Crawl`, of the package-level visited map `p` and of the
`Fetcher` interface, followed by the properties of the crawl.

## Execution model

`Crawl` starts every child with `go Crawl(u, depth-1, fetcher, childrenQuit)` and the
very next statement of the parent is `<-childrenQuit`.  `childrenQuit` is unbuffered and
a crawl sends on its `quitChan` exactly once, as its last action.  Hence while a child
(and everything below it) runs, its parent is blocked in the receive, and when the
child's send meets that receive the child has nothing left to do: at every moment
exactly one goroutine can move.  The run is therefore one sequence of events, which the
embedding produces by state passing: the world holds the map `p.v`, the state of the
fetcher, the next fresh channel and the events so far.

The interleaving of `Get` and `Add` by goroutines that do run at the same time is
modelled separately (`Pc`, `Shared`, `step`, `run`).
-/

namespace WebCrawler

/-! ## Data model -/

/-- The three results of `Fetcher.Fetch`: `body`, `urls` and `err`
(`none` is Go's `nil` error, `some msg` an error whose text is `msg`). -/
structure FetchResult where
  body : String
  urls : List String
  err : Option String
deriving DecidableEq, Repr

/-- The `Fetcher` interface.  `Fetch` is a method on a receiver whose state (`σ`) it may
read and change: a network client, a cache, or nothing at all for a canned map. -/
structure Fetcher (σ : Type) where
  Fetch : σ → String → FetchResult × σ

/-- Type `Parallelizer`: the map `v` of type `map[string]bool`.  The mutex `mu` is held only
inside `Add` and `Get`; in the one-goroutine-at-a-time run it is free at every call. -/
structure Parallelizer where
  v : String → Option Bool

/-- Method `p.Add(in)`: `p.v[in] = true`. -/
def Parallelizer.Add (p : Parallelizer) (k : String) : Parallelizer :=
  ⟨fun x => if x = k then some true else p.v x⟩

/-- Method `p.Get(in)`: `v, ok := p.v[in]; return v, ok` (the zero value `false` when absent). -/
def Parallelizer.Get (p : Parallelizer) (k : String) : Bool × Bool :=
  match p.v k with
  | some b => (b, true)
  | none => (false, false)

/-- What a run does, in the order it happens. -/
inductive Event where
  -- p.Add(url)
  | add (url : String)
  -- fetcher.Fetch(url), called by the crawl whose depth argument is depth
  | fetch (url : String) (depth : Int)
  -- fmt.Println(err)
  | println (err : String)
  -- fmt.Printf("found: %s %q\n", url, body)
  | found (url body : String)
  -- make(chan bool), giving channel ch
  | make (ch : Nat)
  -- go Crawl(url, depth, fetcher, ch)
  | spawn (url : String) (depth : Int) (ch : Nat)
  -- <-ch
  | recv (ch : Nat)
  -- ch <- true
  | send (ch : Nat)
deriving DecidableEq, Repr

/-- The state of the process: the package variable `p`, the fetcher's state, the number
of channels made so far (the next `make` yields this number) and the events so far. -/
structure World (σ : Type) where
  p : Parallelizer
  fs : σ
  nextChan : Nat
  trace : List Event

variable {σ : Type}

/-- Record one event. -/
def World.emit (w : World σ) (e : Event) : World σ :=
  { w with trace := w.trace ++ [e] }

/-- The world at process start, after `var p = Parallelizer{v: make(map[string]bool)}`:
an empty map, no event; `chans` channels exist already. -/
def World.start (fs : σ) (chans : Nat) : World σ :=
  { p := ⟨fun _ => none⟩, fs := fs, nextChan := chans, trace := [] }

/-! ## Crawl -/

/-- The loop `for _, u := range urls { go Crawl(u, depth-1, fetcher, childrenQuit); <-childrenQuit }`.
`child` is `Crawl` itself, `depth` is already `depth-1`. -/
def crawlLoop (child : String → Int → Nat → World σ → Option (World σ))
    (depth : Int) (childrenQuit : Nat) : List String → World σ → Option (World σ)
  | [], w => some w
  | u :: us, w =>
    match child u depth childrenQuit (w.emit (.spawn u depth childrenQuit)) with
    | none => none
    | some w1 => crawlLoop child depth childrenQuit us (w1.emit (.recv childrenQuit))

/-- Function `Crawl(url, depth, fetcher, quitChan)`.  The first argument bounds the nesting of
calls: with none left the result is `none`. -/
def Crawl (fetcher : Fetcher σ) :
    Nat → String → Int → Nat → World σ → Option (World σ)
  | 0, _, _, _, _ => none
  | fuel + 1, url, depth, quitChan, w =>
    if depth ≤ 0 then
      some (w.emit (.send quitChan))
    else if (w.p.Get url).2 then
      some (w.emit (.send quitChan))
    else
      let w1 : World σ := ({ w with p := w.p.Add url } : World σ).emit (.add url)
      let r := fetcher.Fetch w1.fs url
      let w2 : World σ := ({ w1 with fs := r.2 } : World σ).emit (.fetch url depth)
      match r.1.err with
      | some e => some ((w2.emit (.println e)).emit (.send quitChan))
      | none =>
        let w3 := w2.emit (.found url r.1.body)
        let childrenQuit := w3.nextChan
        let w4 : World σ :=
          ({ w3 with nextChan := w3.nextChan + 1 } : World σ).emit (.make childrenQuit)
        match crawlLoop (Crawl fetcher fuel) (depth - 1) childrenQuit r.1.urls w4 with
        | none => none
        | some w5 => some (w5.emit (.send quitChan))

/-- The URLs on which `Fetch` was called, in order. -/
def fetchesOf : List Event → List String
  | [] => []
  | .fetch u _ :: t => u :: fetchesOf t
  | _ :: t => fetchesOf t

/-! ## The canned fetcher of `main.go` and the A/B/C scenario -/

/-- Method `fakeFetcher.Fetch` over a canned table. -/
def fakeFetch (table : List (String × String × List String)) (url : String) : FetchResult :=
  match table.lookup url with
  | some res => ⟨res.1, res.2, none⟩
  | none => ⟨"", [], some ("not found: " ++ url)⟩

/-- A canned table as a `Fetcher` without state. -/
def fakeFetcher (table : List (String × String × List String)) : Fetcher Unit :=
  ⟨fun s url => (fakeFetch table url, s)⟩

/-- The scenario `A -> [B, C]`, `B -> [A, C]`, `C -> [A]`. -/
def abc : List (String × String × List String) :=
  [("A", "a", ["B", "C"]), ("B", "b", ["A", "C"]), ("C", "c", ["A"])]

/-! ## A total twin of `Crawl`, for the proofs

`crawlN` is `Crawl` with the depth as a natural number, which is also the bound on the
nesting; `Crawl_eq_crawlN` shows that `Crawl` computes it. -/

/-- The loop of `crawlLoop` over a child that always returns. -/
def loopN (child : String → Nat → World σ → World σ)
    (depth : Int) (childrenQuit : Nat) : List String → World σ → World σ
  | [], w => w
  | u :: us, w =>
    loopN child depth childrenQuit us
      ((child u childrenQuit (w.emit (.spawn u depth childrenQuit))).emit (.recv childrenQuit))

/-- The state in which `Crawl` calls `Fetch`: `url` marked, `add` recorded. -/
def marked (url : String) (w : World σ) : World σ :=
  ({ w with p := w.p.Add url } : World σ).emit (.add url)

/-- The state right after `Fetch` returned. -/
def fetched (fetcher : Fetcher σ) (url : String) (depth : Int) (w : World σ) : World σ :=
  ({ marked url w with fs := (fetcher.Fetch w.fs url).2 } : World σ).emit (.fetch url depth)

/-- What `Fetch` returns for `url` in the state `w`. -/
def resultAt (fetcher : Fetcher σ) (url : String) (w : World σ) : FetchResult :=
  (fetcher.Fetch w.fs url).1

/-- The state in which the loop over the discovered URLs starts. -/
def fanOut (fetcher : Fetcher σ) (url : String) (depth : Int) (w : World σ) : World σ :=
  let w3 := (fetched fetcher url depth w).emit (.found url (resultAt fetcher url w).body)
  ({ w3 with nextChan := w3.nextChan + 1 } : World σ).emit (.make w3.nextChan)

/-- The crawl with `depth = n`. -/
def crawlN (fetcher : Fetcher σ) : Nat → String → Nat → World σ → World σ
  | 0, _, quitChan, w => w.emit (.send quitChan)
  | n + 1, url, quitChan, w =>
    if (w.p.Get url).2 then
      w.emit (.send quitChan)
    else
      match (resultAt fetcher url w).err with
      | some e => ((fetched fetcher url (n + 1 : Nat) w).emit (.println e)).emit (.send quitChan)
      | none =>
        (loopN (crawlN fetcher n) (n : Nat) w.nextChan (resultAt fetcher url w).urls
          (fanOut fetcher url (n + 1 : Nat) w)).emit (.send quitChan)

/-! ## The effect of a stretch of the run on the visited map

`Ext w w1 t`: from `w` the run reached `w1` recording the events `t`; entries of the map
were kept as they were, the new entries are exactly the URLs fetched in `t`, each of
them fetched once. -/

structure Ext (w w1 : World σ) (t : List Event) : Prop where
  trace_eq : w1.trace = w.trace ++ t
  keep : ∀ u, w.p.v u ≠ none → w1.p.v u = w.p.v u
  mark : ∀ u, w.p.v u = none →
    (w1.p.v u = some true ∧ u ∈ fetchesOf t) ∨ (w1.p.v u = none ∧ u ∉ fetchesOf t)
  fresh : ∀ u ∈ fetchesOf t, w.p.v u = none
  nodup : (fetchesOf t).Nodup
  chan : w.nextChan ≤ w1.nextChan

/-- The events recorded after `w` on the way to `w1`. -/
def evs (w w1 : World σ) : List Event :=
  w1.trace.drop w.trace.length

/-! ## Links between pages -/

/-- Page `u` links to `v`: a call `Fetch(u)` can succeed with `v` among the URLs it
returns (for a fetcher without state: `Fetch(u)` succeeds with `v` among its URLs). -/
def Links (fetcher : Fetcher σ) (u v : String) : Prop :=
  ∃ s, (fetcher.Fetch s u).1.err = none ∧ v ∈ (fetcher.Fetch s u).1.urls

/-- Page `u` always links to `v`: every call `Fetch(u)` succeeds with `v` among its URLs. -/
def AlwaysLinks (fetcher : Fetcher σ) (u v : String) : Prop :=
  ∀ s, (fetcher.Fetch s u).1.err = none ∧ v ∈ (fetcher.Fetch s u).1.urls

/-- `Reach fetcher P k a b`: `b` is reached from `a` by a chain of `k` links, each of them
found on a page that satisfies `P` and whose `Fetch` succeeds. -/
inductive Reach (fetcher : Fetcher σ) (P : String → Prop) : Nat → String → String → Prop where
  | here (a : String) : Reach fetcher P 0 a a
  | link {k : Nat} {a b c : String} :
      P a → Links fetcher a b → Reach fetcher P k b c → Reach fetcher P (k + 1) a c

/-- A graph in which the depth-first order reaches `C` first through `B`:
`A -> [B, C]`, `B -> [C]`, `C -> [D]`, `D -> []`. -/
def dag : List (String × String × List String) :=
  [("A", "a", ["B", "C"]), ("B", "b", ["C"]), ("C", "c", ["D"]), ("D", "d", [])]

/-! ## The operations of one fan-out on its channel -/

/-- Whether the event is a spawn with completion channel `c` or a receive from `c`:
the two things the loop of a crawl does with its `childrenQuit`. -/
def Event.onChan (c : Nat) : Event → Bool
  | .spawn _ _ c1 => c1 == c
  | .recv c1 => c1 == c
  | _ => false

/-- The loop as the source runs it, seen on `childrenQuit`: each child is started and
its signal received before the next child is started. -/
def spawnWaitInTurn (depth : Int) (c : Nat) : List String → List Event
  | [] => []
  | u :: us => Event.spawn u depth c :: Event.recv c :: spawnWaitInTurn depth c us

/-! ## Goroutines that run `Get` and `Add` at the same time

Each task runs `if _, ok := p.Get(url); !ok { p.Add(url) } else { quitChan <- true; return }`
for the same `url`.  `Get` and `Add` each lock `p.mu`, work on `p.v`, and unlock; a
schedule names, step by step, the task that moves. -/

/-- Where a task stands. -/
inductive Pc where
  -- in Get, before p.mu.Lock()
  | getLock
  -- in Get, holding p.mu, before v, ok := p.v[in]
  | getRead
  -- in Get, holding p.mu, ok known, before the deferred p.mu.Unlock()
  | getUnlock (ok : Bool)
  -- Get said absent; in Add, before p.mu.Lock()
  | addLock
  -- in Add, holding p.mu, before p.v[in] = true
  | addWrite
  -- in Add, holding p.mu, before the deferred p.mu.Unlock()
  | addUnlock
  -- found the URL absent and marked it: goes on to fetcher.Fetch(url)
  | fetching
  -- found the URL present: quitChan <- true; return
  | skipped
deriving DecidableEq, Repr

/-- The map, the mutex `p.mu` (`locked`) and the place of every task. -/
structure Shared where
  p : Parallelizer
  locked : Bool
  pc : Nat → Pc

/-- Task `i` makes its next move; a task that waits for the mutex, or has finished,
stays where it is. -/
def step (url : String) (i : Nat) (s : Shared) : Shared :=
  match s.pc i with
  | .getLock =>
    if s.locked then s else { s with locked := true, pc := Function.update s.pc i .getRead }
  | .getRead => { s with pc := Function.update s.pc i (.getUnlock (s.p.Get url).2) }
  | .getUnlock ok =>
    { s with locked := false,
             pc := Function.update s.pc i (if ok then Pc.skipped else Pc.addLock) }
  | .addLock =>
    if s.locked then s else { s with locked := true, pc := Function.update s.pc i .addWrite }
  | .addWrite => { s with p := s.p.Add url, pc := Function.update s.pc i .addUnlock }
  | .addUnlock => { s with locked := false, pc := Function.update s.pc i .fetching }
  | .fetching => s
  | .skipped => s

/-- Run a schedule. -/
def run (url : String) : List Nat → Shared → Shared
  | [], s => s
  | i :: sched, s => run url sched (step url i s)

/-- All tasks about to call `Get`, the mutex free. -/
def Shared.init (p : Parallelizer) : Shared :=
  { p := p, locked := false, pc := fun _ => .getLock }

/-- The schedule in which the tasks of `order` run one after another, each from its
`Get` to the end of its `Add` (six moves). -/
def serial : List Nat → List Nat
  | [] => []
  | i :: order => List.replicate 6 i ++ serial order

/-! ## The run of `main` -/

/-- The variable `fetcher`: the populated `fakeFetcher` of `main.go`. -/
def fetcher : List (String × String × List String) :=
  [("https://golang.org/", "The Go Programming Language",
      ["https://golang.org/pkg/", "https://golang.org/cmd/"]),
   ("https://golang.org/pkg/", "Packages",
      ["https://golang.org/", "https://golang.org/cmd/", "https://golang.org/pkg/fmt/",
       "https://golang.org/pkg/os/"]),
   ("https://golang.org/pkg/fmt/", "Package fmt",
      ["https://golang.org/", "https://golang.org/pkg/"]),
   ("https://golang.org/pkg/os/", "Package os",
      ["https://golang.org/", "https://golang.org/pkg/"])]

/-- Function `main`: `childrenQuit := make(chan bool)`,
`go Crawl("https://golang.org/", 4, fetcher, childrenQuit)`, `<-childrenQuit`, from the
state at process start.  The argument bounds the nesting of `Crawl`. -/
def main (fuel : Nat) : Option (World Unit) :=
  let w0 : World Unit := World.start () 0
  let childrenQuit := w0.nextChan
  let w1 : World Unit :=
    ({ w0 with nextChan := w0.nextChan + 1 } : World Unit).emit (.make childrenQuit)
  match Crawl (fakeFetcher fetcher) fuel "https://golang.org/" 4 childrenQuit
      (w1.emit (.spawn "https://golang.org/" 4 childrenQuit)) with
  | none => none
  | some w2 => some (w2.emit (.recv childrenQuit))

/-- What the run printed: the `Println` and `Printf` events, in order. -/
def reportsOf : List Event → List Event
  | [] => []
  | .println e :: t => .println e :: reportsOf t
  | .found u b :: t => .found u b :: reportsOf t
  | _ :: t => reportsOf t

/-! ## Counting the operations on a channel -/

/-- Number of sends on `c`. -/
def sendsOn (c : Nat) : List Event → Nat
  | [] => 0
  | .send c1 :: t => (if c1 = c then 1 else 0) + sendsOn c t
  | _ :: t => sendsOn c t

/-- Number of receives from `c`. -/
def recvsOn (c : Nat) : List Event → Nat
  | [] => 0
  | .recv c1 :: t => (if c1 = c then 1 else 0) + recvsOn c t
  | _ :: t => recvsOn c t

/-- Number of child crawls started with completion channel `c`. -/
def spawnsOn (c : Nat) : List Event → Nat
  | [] => 0
  | .spawn _ _ c1 :: t => (if c1 = c then 1 else 0) + spawnsOn c t
  | _ :: t => spawnsOn c t

/-- What the events of a crawl with completion channel `q` do on a channel `c`: as many
sends as receives, plus the one send on `q`; nothing is received from, or spawned on, a
channel that existed before the crawl. -/
def Signals (lo q c : Nat) (t : List Event) : Prop :=
  sendsOn c t = recvsOn c t + (if q = c then 1 else 0) ∧
    (c < lo → recvsOn c t = 0 ∧ spawnsOn c t = 0)

end WebCrawler

/-!
# Tree walk (cmd/walk-tree/main.go)

`Walk` sends the values of a tree on a channel; `Same` starts one `Walk` per tree, each
on its own unbuffered channel that is closed when the walk is over, and reads the two
channels in turn.  What `Same` receives from a channel is the sequence that `Walk` sends
on it, so a channel is modelled by the list of the values sent.
-/

namespace WalkTree

/-- Type `tree.Tree` of `golang.org/x/tour/tree`: `struct { Left *Tree; Value int;
Right *Tree }`, the `nil` pointer being the empty tree. -/
inductive Tree where
  | nil
  | node (Left : Tree) (Value : Int) (Right : Tree)
deriving DecidableEq, Repr

/-- Function `Walk(t, ch)`: `sent` holds the values sent on `ch` so far, the result those
sent when `Walk` returns (every send finds its receiver). -/
def Walk : Tree → List Int → List Int
  | .nil, sent => sent
  | .node l v r, sent => Walk r (Walk l sent ++ [v])

/-- The loop of `Same` over what is still to come on `ch1` and on `ch2`:
`v1, ok1 := <-ch1; v2, ok2 := <-ch2; if !ok1 || !ok2 { break }; if v1 != v2 { return false }`,
and `return true` after the loop. -/
def sameLoop : List Int → List Int → Bool
  -- ch1 is closed: ok1 is false, break
  | [], _ => true
  -- ch2 is closed: ok2 is false, break
  | _ :: _, [] => true
  | v1 :: rest1, v2 :: rest2 => if v1 ≠ v2 then false else sameLoop rest1 rest2

/-- Function `Same(t1, t2)`. -/
def Same (t1 t2 : Tree) : Bool :=
  sameLoop (Walk t1 []) (Walk t2 [])

/-- The values of a tree in order: left subtree, value of the node, right subtree. -/
def inorder : Tree → List Int
  | .nil => []
  | .node l v r => inorder l ++ v :: inorder r

/-- Number of nodes. -/
def size : Tree → Nat
  | .nil => 0
  | .node l _ r => size l + 1 + size r

/-- Binary search tree: at every node the values on the left are at most the value of
the node and those on the right at least. -/
def IsBST : Tree → Prop
  | .nil => True
  | .node l v r => (∀ x ∈ inorder l, x ≤ v) ∧ (∀ x ∈ inorder r, v ≤ x) ∧ IsBST l ∧ IsBST r

end WalkTree

namespace WebCrawler

variable {σ : Type}

/-! # Properties -/

/-! ## `Crawl` computes `crawlN` -/

theorem crawlLoop_eq_loopN (child : String → Int → Nat → World σ → Option (World σ))
    (childN : String → Nat → World σ → World σ) (depth : Int)
    (h : ∀ u c w, child u depth c w = some (childN u c w)) (c : Nat) (urls : List String) :
    ∀ w, crawlLoop child depth c urls w = some (loopN childN depth c urls w) := by
  induction urls with
  | nil => intro w; rfl
  | cons u us ih =>
    intro w
    simp only [crawlLoop, loopN, h, ih]

theorem Crawl_eq_crawlN (fetcher : Fetcher σ) :
    ∀ (fuel : Nat) (url : String) (depth : Int) (q : Nat) (w : World σ),
      depth.toNat < fuel →
      Crawl fetcher fuel url depth q w = some (crawlN fetcher depth.toNat url q w) := by
  intro fuel
  induction fuel with
  | zero => intro url depth q w h; omega
  | succ fuel ih =>
    intro url depth q w h
    by_cases hd : depth ≤ 0
    · have h0 : depth.toNat = 0 := by omega
      simp [Crawl, hd, h0, crawlN]
    · obtain ⟨n, hn⟩ : ∃ n : Nat, depth = ((n + 1 : Nat) : Int) := ⟨depth.toNat - 1, by omega⟩
      subst hn
      have hfuel : n < fuel := by omega
      have hchild : ∀ u c w, Crawl fetcher fuel u (((n + 1 : Nat) : Int) - 1) c w
          = some (crawlN fetcher n u c w) := by
        intro u c w
        have := ih u (((n + 1 : Nat) : Int) - 1) c w (by omega)
        rw [this]
        congr 2
        omega
      have hloop := crawlLoop_eq_loopN (Crawl fetcher fuel) (crawlN fetcher n)
        (((n + 1 : Nat) : Int) - 1) hchild
      have hcast : (((n + 1 : Nat) : Int) - 1) = ((n : Nat) : Int) := by omega
      have htn : (((n + 1 : Nat) : Int)).toNat = n + 1 := by omega
      rw [htn]
      simp only [Crawl, crawlN, hd, if_false]
      by_cases hg : (w.p.Get url).2 = true
      · simp [hg]
      · simp only [hg, if_false]
        cases he : (resultAt fetcher url w).err with
        | some e =>
          simp only [resultAt] at he
          simp [he, fetched, marked, World.emit]
        | none =>
          simp only [resultAt] at he
          simp only [he, World.emit]
          rw [hcast] at hloop
          simp [hloop, fanOut, fetched, marked, resultAt, World.emit]

/-! ## Elementary facts -/

theorem fetchesOf_append (t1 t2 : List Event) :
    fetchesOf (t1 ++ t2) = fetchesOf t1 ++ fetchesOf t2 := by
  induction t1 with
  | nil => rfl
  | cons e t ih => cases e <;> simp [fetchesOf, ih]

theorem mem_fetchesOf {u : String} {t : List Event} :
    u ∈ fetchesOf t ↔ ∃ d, Event.fetch u d ∈ t := by
  induction t with
  | nil => simp [fetchesOf]
  | cons e t ih =>
    cases e with
    | fetch v d =>
      simp only [fetchesOf, List.mem_cons, ih, Event.fetch.injEq]
      constructor
      · rintro (h | ⟨d1, h⟩)
        · exact ⟨d, Or.inl ⟨h, rfl⟩⟩
        · exact ⟨d1, Or.inr h⟩
      · rintro ⟨d1, ⟨h, _⟩ | h⟩
        · exact Or.inl h
        · exact Or.inr ⟨d1, h⟩
    | _ => simp [fetchesOf, ih]

theorem fetchesOf_subset {t1 t2 : List Event} (h : t1 ⊆ t2) {u : String}
    (hu : u ∈ fetchesOf t1) : u ∈ fetchesOf t2 := by
  rw [mem_fetchesOf] at hu ⊢
  obtain ⟨d, hd⟩ := hu
  exact ⟨d, h hd⟩

theorem Get_snd_eq_true (p : Parallelizer) (u : String) :
    (p.Get u).2 = true ↔ p.v u ≠ none := by
  unfold Parallelizer.Get
  cases p.v u <;> simp

theorem Get_snd_eq_false (p : Parallelizer) (u : String) :
    (p.Get u).2 = false ↔ p.v u = none := by
  unfold Parallelizer.Get
  cases p.v u <;> simp

theorem Ext.refl (w : World σ) : Ext w w [] where
  trace_eq := by simp
  keep := fun _ _ => rfl
  mark := fun u h => Or.inr ⟨h, by simp [fetchesOf]⟩
  fresh := by simp [fetchesOf]
  nodup := by simp [fetchesOf]
  chan := le_refl _

theorem Ext.trans {w w1 w2 : World σ} {t1 t2 : List Event}
    (h1 : Ext w w1 t1) (h2 : Ext w1 w2 t2) : Ext w w2 (t1 ++ t2) where
  trace_eq := by rw [h2.trace_eq, h1.trace_eq, List.append_assoc]
  keep := by
    intro u hu
    have e1 := h1.keep u hu
    rw [h2.keep u (by rw [e1]; exact hu), e1]
  mark := by
    intro u hu
    rw [fetchesOf_append]
    rcases h1.mark u hu with ⟨hv, hm⟩ | ⟨hv, hm⟩
    · left
      refine ⟨?_, List.mem_append_left _ hm⟩
      rw [h2.keep u (by rw [hv]; simp), hv]
    · rcases h2.mark u hv with ⟨hv2, hm2⟩ | ⟨hv2, hm2⟩
      · exact Or.inl ⟨hv2, List.mem_append_right _ hm2⟩
      · right
        refine ⟨hv2, ?_⟩
        simp [hm, hm2]
  fresh := by
    intro u hu
    rw [fetchesOf_append, List.mem_append] at hu
    rcases hu with hu | hu
    · exact h1.fresh u hu
    · by_contra hne
      have := h2.fresh u hu
      rw [h1.keep u hne] at this
      exact hne this
  nodup := by
    rw [fetchesOf_append, List.nodup_append]
    refine ⟨h1.nodup, h2.nodup, ?_⟩
    intro u hu1 hu2
    have hnone := h1.fresh u hu1
    have hv2 := h2.fresh u hu2
    rcases h1.mark u hnone with ⟨hv, _⟩ | ⟨_, hm⟩
    · rw [hv] at hv2; cases hv2
    · exact hm hu1
  chan := le_trans h1.chan h2.chan

/-- An event other than a `Fetch` leaves the map alone. -/
theorem ext_emit (w : World σ) (e : Event) (he : fetchesOf [e] = []) :
    Ext w (w.emit e) [e] where
  trace_eq := rfl
  keep := fun _ _ => rfl
  mark := fun u h => Or.inr ⟨h, by simp [he]⟩
  fresh := by simp [he]
  nodup := by simp [he]
  chan := le_refl _

/-- Marking and fetching a URL that is not in the map. -/
theorem ext_fetched (fetcher : Fetcher σ) (url : String) (depth : Int) (w : World σ)
    (h : w.p.v url = none) :
    Ext w (fetched fetcher url depth w) [Event.add url, Event.fetch url depth] where
  trace_eq := by simp [fetched, marked, World.emit]
  keep := by
    intro u hu
    have : u ≠ url := fun e => hu (e ▸ h)
    simp [fetched, marked, World.emit, Parallelizer.Add, this]
  mark := by
    intro u hu
    by_cases e : u = url
    · left; subst e
      simp [fetched, marked, World.emit, Parallelizer.Add, fetchesOf]
    · right
      simp [fetched, marked, World.emit, Parallelizer.Add, fetchesOf, e, hu]
  fresh := by
    intro u hu
    simp [fetchesOf] at hu
    rw [hu]; exact h
  nodup := by simp [fetchesOf]
  chan := le_refl _

/-- From marking `url` to the start of the loop over its links. -/
theorem ext_fanOut (fetcher : Fetcher σ) (url : String) (depth : Int) (w : World σ)
    (h : w.p.v url = none) :
    Ext w (fanOut fetcher url depth w)
      [Event.add url, Event.fetch url depth,
       Event.found url (resultAt fetcher url w).body, Event.make w.nextChan] := by
  have h1 := ext_fetched fetcher url depth w h
  have h2 := ext_emit (fetched fetcher url depth w)
    (Event.found url (resultAt fetcher url w).body) rfl
  have h3 : Ext ((fetched fetcher url depth w).emit
      (Event.found url (resultAt fetcher url w).body))
      (fanOut fetcher url depth w) [Event.make w.nextChan] :=
    { trace_eq := by simp [fanOut, fetched, marked, World.emit]
      keep := fun _ _ => rfl
      mark := fun u hu => Or.inr ⟨hu, by simp [fetchesOf]⟩
      fresh := by simp [fetchesOf]
      nodup := by simp [fetchesOf]
      chan := by simp [fanOut, World.emit] }
  simpa using (h1.trans h2).trans h3

/-- The loop, over children that each extend the run. -/
theorem ext_loopN (child : String → Nat → World σ → World σ) (depth : Int) (c : Nat)
    (hchild : ∀ u w, ∃ t, Ext w (child u c w) t) (urls : List String) :
    ∀ w, ∃ t, Ext w (loopN child depth c urls w) t := by
  induction urls with
  | nil => intro w; exact ⟨[], Ext.refl w⟩
  | cons u us ih =>
    intro w
    obtain ⟨t1, h1⟩ := hchild u (w.emit (.spawn u depth c))
    obtain ⟨t2, h2⟩ := ih ((child u c (w.emit (.spawn u depth c))).emit (.recv c))
    exact ⟨_, (((ext_emit w (.spawn u depth c) rfl).trans h1).trans
      (ext_emit _ (.recv c) rfl)).trans h2⟩

theorem ext_crawlN (fetcher : Fetcher σ) :
    ∀ (n : Nat) (url : String) (q : Nat) (w : World σ),
      ∃ t, Ext w (crawlN fetcher n url q w) t := by
  intro n
  induction n with
  | zero => intro url q w; exact ⟨_, ext_emit w (.send q) rfl⟩
  | succ n ih =>
    intro url q w
    by_cases hg : (w.p.Get url).2 = true
    · simp only [crawlN, hg, if_true]
      exact ⟨_, ext_emit w (.send q) rfl⟩
    · have hnone : w.p.v url = none := by
        rw [← Get_snd_eq_false]; simpa using hg
      simp only [crawlN, hg, if_false]
      cases he : (resultAt fetcher url w).err with
      | some e =>
        exact ⟨_, ((ext_fetched fetcher url _ w hnone).trans
          (ext_emit _ (.println e) rfl)).trans (ext_emit _ (.send q) rfl)⟩
      | none =>
        obtain ⟨t, ht⟩ := ext_loopN (crawlN fetcher n) (n : Nat) w.nextChan
          (fun u w1 => ih u w.nextChan w1) (resultAt fetcher url w).urls
          (fanOut fetcher url (n + 1 : Nat) w)
        exact ⟨_, ((ext_fanOut fetcher url _ w hnone).trans ht).trans (ext_emit _ (.send q) rfl)⟩

/-! ## The events of a call

`evs w w1` is what the run recorded between `w` and `w1`.  The equations below unfold
the events of a crawl and of its loop. -/

theorem evs_of_ext {w w1 : World σ} {t : List Event} (h : Ext w w1 t) : evs w w1 = t := by
  simp [evs, h.trace_eq]

theorem ext_evs_crawlN (fetcher : Fetcher σ) (n : Nat) (url : String) (q : Nat) (w : World σ) :
    Ext w (crawlN fetcher n url q w) (evs w (crawlN fetcher n url q w)) := by
  obtain ⟨t, ht⟩ := ext_crawlN fetcher n url q w
  rw [evs_of_ext ht]; exact ht

theorem ext_evs_loopN (fetcher : Fetcher σ) (n : Nat) (depth : Int) (c : Nat)
    (urls : List String) (w : World σ) :
    Ext w (loopN (crawlN fetcher n) depth c urls w)
      (evs w (loopN (crawlN fetcher n) depth c urls w)) := by
  obtain ⟨t, ht⟩ := ext_loopN (crawlN fetcher n) depth c
    (fun u w1 => ext_crawlN fetcher n u c w1) urls w
  rw [evs_of_ext ht]; exact ht

theorem evs_crawlN_zero (fetcher : Fetcher σ) (url : String) (q : Nat) (w : World σ) :
    evs w (crawlN fetcher 0 url q w) = [Event.send q] := by
  simp [evs, crawlN, World.emit]

theorem evs_crawlN_seen (fetcher : Fetcher σ) (n : Nat) (url : String) (q : Nat) (w : World σ)
    (h : (w.p.Get url).2 = true) :
    evs w (crawlN fetcher (n + 1) url q w) = [Event.send q] := by
  simp [evs, crawlN, World.emit, h]

theorem evs_crawlN_fail (fetcher : Fetcher σ) (n : Nat) (url : String) (q : Nat) (w : World σ)
    (e : String) (h : (w.p.Get url).2 = false) (he : (resultAt fetcher url w).err = some e) :
    evs w (crawlN fetcher (n + 1) url q w)
      = [Event.add url, Event.fetch url (n + 1 : Nat), Event.println e, Event.send q] := by
  simp [evs, crawlN, World.emit, h, he, fetched, marked]

theorem evs_crawlN_ok (fetcher : Fetcher σ) (n : Nat) (url : String) (q : Nat) (w : World σ)
    (h : (w.p.Get url).2 = false) (he : (resultAt fetcher url w).err = none) :
    evs w (crawlN fetcher (n + 1) url q w)
      = [Event.add url, Event.fetch url (n + 1 : Nat),
          Event.found url (resultAt fetcher url w).body, Event.make w.nextChan]
        ++ evs (fanOut fetcher url (n + 1 : Nat) w)
            (loopN (crawlN fetcher n) (n : Nat) w.nextChan (resultAt fetcher url w).urls
              (fanOut fetcher url (n + 1 : Nat) w))
        ++ [Event.send q] := by
  have hnone : w.p.v url = none := (Get_snd_eq_false _ _).1 h
  have h1 := ext_fanOut fetcher url (n + 1 : Nat) w hnone
  have h2 := ext_evs_loopN fetcher n (n : Nat) w.nextChan (resultAt fetcher url w).urls
    (fanOut fetcher url (n + 1 : Nat) w)
  have h3 := (h1.trans h2).trans (ext_emit _ (Event.send q) rfl)
  have hc : crawlN fetcher (n + 1) url q w
      = (loopN (crawlN fetcher n) (n : Nat) w.nextChan (resultAt fetcher url w).urls
          (fanOut fetcher url (n + 1 : Nat) w)).emit (Event.send q) := by
    simp [crawlN, h, he]
  rw [hc, evs_of_ext h3]

theorem evs_loopN_nil (child : String → Nat → World σ → World σ) (depth : Int) (c : Nat)
    (w : World σ) : evs w (loopN child depth c [] w) = [] := by
  simp [evs, loopN]

theorem evs_loopN_cons (fetcher : Fetcher σ) (n : Nat) (depth : Int) (c : Nat) (u : String)
    (us : List String) (w : World σ) :
    evs w (loopN (crawlN fetcher n) depth c (u :: us) w)
      = Event.spawn u depth c
          :: evs (w.emit (.spawn u depth c)) (crawlN fetcher n u c (w.emit (.spawn u depth c)))
        ++ Event.recv c
          :: evs ((crawlN fetcher n u c (w.emit (.spawn u depth c))).emit (.recv c))
              (loopN (crawlN fetcher n) depth c us
                ((crawlN fetcher n u c (w.emit (.spawn u depth c))).emit (.recv c))) := by
  have h1 := ext_emit w (Event.spawn u depth c) rfl
  have h2 := ext_evs_crawlN fetcher n u c (w.emit (.spawn u depth c))
  have h3 := ext_emit (crawlN fetcher n u c (w.emit (.spawn u depth c))) (Event.recv c) rfl
  have h4 := ext_evs_loopN fetcher n depth c us
    ((crawlN fetcher n u c (w.emit (.spawn u depth c))).emit (.recv c))
  have h5 := ((h1.trans h2).trans h3).trans h4
  have hc : loopN (crawlN fetcher n) depth c (u :: us) w
      = loopN (crawlN fetcher n) depth c us
          ((crawlN fetcher n u c (w.emit (.spawn u depth c))).emit (.recv c)) := rfl
  rw [hc, evs_of_ext h5]
  simp

/-- Enough nesting gives the result of `crawlN`, whose events extend the run. -/
theorem Crawl_spec (fetcher : Fetcher σ) (url : String) (depth : Int) (q : Nat)
    (w : World σ) (k : Nat) :
    Crawl fetcher (depth.toNat + 1 + k) url depth q w
        = some (crawlN fetcher depth.toNat url q w) ∧
      Ext w (crawlN fetcher depth.toNat url q w)
        (evs w (crawlN fetcher depth.toNat url q w)) :=
  ⟨Crawl_eq_crawlN fetcher _ url depth q w (by omega), ext_evs_crawlN fetcher _ url q w⟩

/-! ## Every fetch lies on a chain of links from the URL of the call -/

theorem Reach.mono {fetcher : Fetcher σ} {P Q : String → Prop} (hPQ : ∀ x, P x → Q x)
    {k : Nat} {a b : String} (h : Reach fetcher P k a b) : Reach fetcher Q k a b := by
  induction h with
  | here a => exact Reach.here a
  | link hp hl _ ih => exact Reach.link (hPQ _ hp) hl ih

theorem loopN_reach (fetcher : Fetcher σ) (n : Nat) (depth : Int) (c : Nat)
    (ih : ∀ (url : String) (q : Nat) (w : World σ) (x : String) (d : Int),
      Event.fetch x d ∈ evs w (crawlN fetcher n url q w) →
      ∃ k : Nat, k < n ∧ d = (n : Int) - k ∧
        Reach fetcher (fun y => y ∈ fetchesOf (evs w (crawlN fetcher n url q w))) k url x)
    (urls : List String) :
    ∀ (w : World σ) (x : String) (d : Int),
      Event.fetch x d ∈ evs w (loopN (crawlN fetcher n) depth c urls w) →
      ∃ u ∈ urls, ∃ k : Nat, k < n ∧ d = (n : Int) - k ∧
        Reach fetcher
          (fun y => y ∈ fetchesOf (evs w (loopN (crawlN fetcher n) depth c urls w))) k u x := by
  induction urls with
  | nil => intro w x d h; simp [evs_loopN_nil] at h
  | cons u us ihl =>
    intro w x d h
    rw [evs_loopN_cons] at h ⊢
    simp only [List.mem_cons, List.mem_append, false_or, reduceCtorEq] at h
    rcases h with h | h
    · obtain ⟨k, hk, hd, hr⟩ := ih u c _ x d h
      refine ⟨u, List.mem_cons_self _ _, k, hk, hd, hr.mono ?_⟩
      intro y hy
      refine fetchesOf_subset ?_ hy
      intro e he
      simp [he]
    · obtain ⟨v, hv, k, hk, hd, hr⟩ := ihl _ x d h
      refine ⟨v, List.mem_cons_of_mem _ hv, k, hk, hd, hr.mono ?_⟩
      intro y hy
      refine fetchesOf_subset ?_ hy
      intro e he
      simp [he]

theorem crawlN_reach (fetcher : Fetcher σ) :
    ∀ (n : Nat) (url : String) (q : Nat) (w : World σ) (x : String) (d : Int),
      Event.fetch x d ∈ evs w (crawlN fetcher n url q w) →
      ∃ k : Nat, k < n ∧ d = (n : Int) - k ∧
        Reach fetcher (fun y => y ∈ fetchesOf (evs w (crawlN fetcher n url q w))) k url x := by
  intro n
  induction n with
  | zero => intro url q w x d h; simp [evs_crawlN_zero] at h
  | succ n ih =>
    intro url q w x d h
    by_cases hg : (w.p.Get url).2 = true
    · simp [evs_crawlN_seen fetcher n url q w hg] at h
    · have hg : (w.p.Get url).2 = false := by simpa using hg
      cases he : (resultAt fetcher url w).err with
      | some e =>
        rw [evs_crawlN_fail fetcher n url q w e hg he] at h ⊢
        simp only [List.mem_cons, Event.fetch.injEq, reduceCtorEq, false_or, List.mem_nil_iff,
          or_false] at h
        obtain ⟨rfl, rfl⟩ := h
        exact ⟨0, by omega, by simp, Reach.here _⟩
      | none =>
        rw [evs_crawlN_ok fetcher n url q w hg he] at h ⊢
        simp only [List.mem_cons, List.mem_append, Event.fetch.injEq, reduceCtorEq, false_or,
          List.mem_nil_iff, or_false, List.cons_append, List.nil_append] at h
        rcases h with ⟨rfl, rfl⟩ | h
        · exact ⟨0, by omega, by simp, Reach.here _⟩
        · obtain ⟨u, hu, k, hk, hd, hr⟩ := loopN_reach fetcher n (n : Nat) w.nextChan ih _ _ x d h
          refine ⟨k + 1, by omega, by push_cast; omega, Reach.link ?_ ⟨w.fs, he, hu⟩ (hr.mono ?_)⟩
          · simp [fetchesOf]
          · intro y hy
            refine fetchesOf_subset ?_ hy
            intro e he
            exact List.mem_append_left _ (List.mem_append_right _ he)

/-! ## The depth argument of the child crawls -/

theorem loopN_spawn_depth (fetcher : Fetcher σ) (n : Nat) (c : Nat)
    (ih : ∀ (url : String) (q : Nat) (w : World σ) (u : String) (d : Int) (c1 : Nat),
      Event.spawn u d c1 ∈ evs w (crawlN fetcher n url q w) → 0 ≤ d ∧ d < (n : Int))
    (urls : List String) :
    ∀ (w : World σ) (u : String) (d : Int) (c1 : Nat),
      Event.spawn u d c1 ∈ evs w (loopN (crawlN fetcher n) (n : Nat) c urls w) →
      0 ≤ d ∧ d ≤ (n : Int) := by
  induction urls with
  | nil => intro w u d c1 h; simp [evs_loopN_nil] at h
  | cons v vs ihl =>
    intro w u d c1 h
    rw [evs_loopN_cons] at h
    simp only [List.mem_cons, List.mem_append, Event.spawn.injEq, reduceCtorEq, false_or] at h
    rcases h with (⟨_, rfl, _⟩ | h) | h
    · omega
    · have := ih v c _ u d c1 h
      omega
    · exact ihl _ u d c1 h

theorem crawlN_spawn_depth (fetcher : Fetcher σ) :
    ∀ (n : Nat) (url : String) (q : Nat) (w : World σ) (u : String) (d : Int) (c1 : Nat),
      Event.spawn u d c1 ∈ evs w (crawlN fetcher n url q w) → 0 ≤ d ∧ d < (n : Int) := by
  intro n
  induction n with
  | zero => intro url q w u d c1 h; simp [evs_crawlN_zero] at h
  | succ n ih =>
    intro url q w u d c1 h
    by_cases hg : (w.p.Get url).2 = true
    · simp [evs_crawlN_seen fetcher n url q w hg] at h
    · have hg : (w.p.Get url).2 = false := by simpa using hg
      cases he : (resultAt fetcher url w).err with
      | some e => simp [evs_crawlN_fail fetcher n url q w e hg he] at h
      | none =>
        rw [evs_crawlN_ok fetcher n url q w hg he] at h
        simp only [List.mem_cons, List.mem_append, reduceCtorEq, false_or,
          List.mem_nil_iff, or_false, List.cons_append, List.nil_append] at h
        have := loopN_spawn_depth fetcher n w.nextChan ih _ _ u d c1 h
        push_cast
        omega

/-! ## What a crawl with depth left marks -/

theorem crawlN_seen_eq (fetcher : Fetcher σ) (n : Nat) (url : String) (q : Nat) (w : World σ)
    (h : (w.p.Get url).2 = true) :
    crawlN fetcher (n + 1) url q w = w.emit (.send q) := by
  simp [crawlN, h]

theorem crawlN_fail_eq (fetcher : Fetcher σ) (n : Nat) (url : String) (q : Nat) (w : World σ)
    (e : String) (h : (w.p.Get url).2 = false) (he : (resultAt fetcher url w).err = some e) :
    crawlN fetcher (n + 1) url q w
      = ((fetched fetcher url (n + 1 : Nat) w).emit (.println e)).emit (.send q) := by
  simp [crawlN, h, he]

theorem crawlN_ok_eq (fetcher : Fetcher σ) (n : Nat) (url : String) (q : Nat) (w : World σ)
    (h : (w.p.Get url).2 = false) (he : (resultAt fetcher url w).err = none) :
    crawlN fetcher (n + 1) url q w
      = (loopN (crawlN fetcher n) (n : Nat) w.nextChan (resultAt fetcher url w).urls
          (fanOut fetcher url (n + 1 : Nat) w)).emit (Event.send q) := by
  simp [crawlN, h, he]

theorem crawlN_marks (fetcher : Fetcher σ) (n : Nat) (url : String) (q : Nat) (w : World σ) :
    (crawlN fetcher (n + 1) url q w).p.v url ≠ none := by
  have hx := ext_evs_crawlN fetcher (n + 1) url q w
  by_cases hv : w.p.v url = none
  · have hg : (w.p.Get url).2 = false := (Get_snd_eq_false _ _).2 hv
    have hmem : url ∈ fetchesOf (evs w (crawlN fetcher (n + 1) url q w)) := by
      cases he : (resultAt fetcher url w).err with
      | some e => rw [evs_crawlN_fail fetcher n url q w e hg he]; simp [fetchesOf]
      | none => rw [evs_crawlN_ok fetcher n url q w hg he]; simp [fetchesOf]
    rcases hx.mark url hv with ⟨h1, _⟩ | ⟨_, h2⟩
    · rw [h1]; simp
    · exact absurd hmem h2
  · rw [hx.keep url hv]; exact hv

theorem loopN_marks (fetcher : Fetcher σ) (n : Nat) (depth : Int) (c : Nat)
    (urls : List String) :
    ∀ (w : World σ), ∀ v ∈ urls,
      (loopN (crawlN fetcher (n + 1)) depth c urls w).p.v v ≠ none := by
  induction urls with
  | nil => intro w v hv; cases hv
  | cons u us ih =>
    intro w v hv
    rcases List.mem_cons.1 hv with rfl | hv
    · have h1 := crawlN_marks fetcher n v c (w.emit (.spawn v depth c))
      have h2 := ext_evs_loopN fetcher (n + 1) depth c us
        ((crawlN fetcher (n + 1) v c (w.emit (.spawn v depth c))).emit (.recv c))
      have h3 : loopN (crawlN fetcher (n + 1)) depth c (v :: us) w
          = loopN (crawlN fetcher (n + 1)) depth c us
              ((crawlN fetcher (n + 1) v c (w.emit (.spawn v depth c))).emit (.recv c)) := rfl
      rw [h3, h2.keep v h1]
      exact h1
    · exact ih _ v hv

/-! ## The links of a page fetched with depth 2 or more are marked -/

theorem loopN_closed (fetcher : Fetcher σ) (n : Nat) (depth : Int) (c : Nat)
    (ih : ∀ (url : String) (q : Nat) (w : World σ) (u : String) (d : Int) (v : String),
      Event.fetch u d ∈ evs w (crawlN fetcher n url q w) → 2 ≤ d → AlwaysLinks fetcher u v →
      (crawlN fetcher n url q w).p.v v ≠ none)
    (urls : List String) :
    ∀ (w : World σ) (u : String) (d : Int) (v : String),
      Event.fetch u d ∈ evs w (loopN (crawlN fetcher n) depth c urls w) → 2 ≤ d →
      AlwaysLinks fetcher u v →
      (loopN (crawlN fetcher n) depth c urls w).p.v v ≠ none := by
  induction urls with
  | nil => intro w u d v h; simp [evs_loopN_nil] at h
  | cons x xs ihl =>
    intro w u d v h hd hl
    rw [evs_loopN_cons] at h
    simp only [List.mem_cons, List.mem_append, false_or, reduceCtorEq] at h
    have h3 : loopN (crawlN fetcher n) depth c (x :: xs) w
        = loopN (crawlN fetcher n) depth c xs
            ((crawlN fetcher n x c (w.emit (.spawn x depth c))).emit (.recv c)) := rfl
    rw [h3]
    rcases h with h | h
    · have h1 := ih x c _ u d v h hd hl
      have h2 := ext_evs_loopN fetcher n depth c xs
        ((crawlN fetcher n x c (w.emit (.spawn x depth c))).emit (.recv c))
      rw [h2.keep v h1]
      exact h1
    · exact ihl _ u d v h hd hl

theorem crawlN_closed (fetcher : Fetcher σ) :
    ∀ (n : Nat) (url : String) (q : Nat) (w : World σ) (u : String) (d : Int) (v : String),
      Event.fetch u d ∈ evs w (crawlN fetcher n url q w) → 2 ≤ d → AlwaysLinks fetcher u v →
      (crawlN fetcher n url q w).p.v v ≠ none := by
  intro n
  induction n with
  | zero => intro url q w u d v h; simp [evs_crawlN_zero] at h
  | succ n ih =>
    intro url q w u d v h hd hl
    by_cases hg : (w.p.Get url).2 = true
    · simp [evs_crawlN_seen fetcher n url q w hg] at h
    · have hg : (w.p.Get url).2 = false := by simpa using hg
      cases he : (resultAt fetcher url w).err with
      | some e =>
        rw [evs_crawlN_fail fetcher n url q w e hg he] at h
        simp only [List.mem_cons, Event.fetch.injEq, reduceCtorEq, false_or, List.mem_nil_iff,
          or_false] at h
        obtain ⟨rfl, rfl⟩ := h
        have := (hl w.fs).1
        simp only [resultAt] at he
        rw [he] at this
        cases this
      | none =>
        rw [evs_crawlN_ok fetcher n url q w hg he] at h
        rw [crawlN_ok_eq fetcher n url q w hg he]
        simp only [List.mem_cons, List.mem_append, Event.fetch.injEq, reduceCtorEq, false_or,
          List.mem_nil_iff, or_false, List.cons_append, List.nil_append] at h
        show (loopN (crawlN fetcher n) (n : Nat) w.nextChan (resultAt fetcher url w).urls
          (fanOut fetcher url (n + 1 : Nat) w)).p.v v ≠ none
        rcases h with ⟨rfl, rfl⟩ | h
        · obtain ⟨m, rfl⟩ : ∃ m, n = m + 1 := ⟨n - 1, by omega⟩
          exact loopN_marks fetcher m _ _ _ _ v (hl w.fs).2
        · exact loopN_closed fetcher n _ _ ih _ _ u d v h hd hl

/-! ## Spawns and receives of a fan-out -/

theorem loopN_chan_fresh (fetcher : Fetcher σ) (n : Nat) (depth : Int) (c : Nat)
    (ih : ∀ (url : String) (q : Nat) (w : World σ) (e : Event) (c1 : Nat),
      e ∈ evs w (crawlN fetcher n url q w) → e.onChan c1 = true → w.nextChan ≤ c1)
    (urls : List String) :
    ∀ (w : World σ) (e : Event) (c1 : Nat),
      e ∈ evs w (loopN (crawlN fetcher n) depth c urls w) → e.onChan c1 = true →
      c1 = c ∨ w.nextChan ≤ c1 := by
  induction urls with
  | nil => intro w e c1 h; simp [evs_loopN_nil] at h
  | cons x xs ihl =>
    intro w e c1 h hc
    rw [evs_loopN_cons] at h
    simp only [List.mem_cons, List.mem_append] at h
    rcases h with (rfl | h) | rfl | h
    · left
      simp only [Event.onChan, beq_iff_eq] at hc
      exact hc.symm
    · right
      have h1 := ih x c (w.emit (.spawn x depth c)) e c1 h hc
      exact h1
    · left
      simp only [Event.onChan, beq_iff_eq] at hc
      exact hc.symm
    · rcases ihl _ e c1 h hc with h1 | h1
      · exact Or.inl h1
      · right
        have := (ext_evs_crawlN fetcher n x c (w.emit (.spawn x depth c))).chan
        exact le_trans this h1

theorem crawlN_chan_fresh (fetcher : Fetcher σ) :
    ∀ (n : Nat) (url : String) (q : Nat) (w : World σ) (e : Event) (c1 : Nat),
      e ∈ evs w (crawlN fetcher n url q w) → e.onChan c1 = true → w.nextChan ≤ c1 := by
  intro n
  induction n with
  | zero =>
    intro url q w e c1 h hc
    simp [evs_crawlN_zero] at h
    subst h; simp [Event.onChan] at hc
  | succ n ih =>
    intro url q w e c1 h hc
    by_cases hg : (w.p.Get url).2 = true
    · simp [evs_crawlN_seen fetcher n url q w hg] at h
      subst h; simp [Event.onChan] at hc
    · have hg : (w.p.Get url).2 = false := by simpa using hg
      cases he : (resultAt fetcher url w).err with
      | some e1 =>
        rw [evs_crawlN_fail fetcher n url q w e1 hg he] at h
        simp only [List.mem_cons, List.mem_nil_iff, or_false] at h
        rcases h with rfl | rfl | rfl | rfl <;> simp [Event.onChan] at hc
      | none =>
        rw [evs_crawlN_ok fetcher n url q w hg he] at h
        simp only [List.mem_cons, List.mem_append, List.mem_nil_iff, or_false] at h
        rcases h with ((rfl | rfl | rfl | rfl) | h) | rfl
        · simp [Event.onChan] at hc
        · simp [Event.onChan] at hc
        · simp [Event.onChan] at hc
        · simp [Event.onChan] at hc
        · have hf : (fanOut fetcher url (n + 1 : Nat) w).nextChan = w.nextChan + 1 := rfl
          rcases loopN_chan_fresh fetcher n _ _ ih _ _ e c1 h hc with h1 | h1
          · omega
          · omega
        · simp [Event.onChan] at hc

theorem filter_onChan_eq_nil (fetcher : Fetcher σ) (n : Nat) (url : String) (q : Nat)
    (w : World σ) (c : Nat) (hc : c < w.nextChan) :
    (evs w (crawlN fetcher n url q w)).filter (Event.onChan c) = [] := by
  rw [List.filter_eq_nil_iff]
  intro e he h
  have := crawlN_chan_fresh fetcher n url q w e c he h
  omega

theorem loopN_filter_onChan (fetcher : Fetcher σ) (n : Nat) (depth : Int) (c : Nat)
    (urls : List String) :
    ∀ (w : World σ), c < w.nextChan →
      (evs w (loopN (crawlN fetcher n) depth c urls w)).filter (Event.onChan c)
        = spawnWaitInTurn depth c urls := by
  induction urls with
  | nil => intro w _; simp [evs_loopN_nil, spawnWaitInTurn]
  | cons x xs ihl =>
    intro w hc
    rw [evs_loopN_cons]
    have h1 := filter_onChan_eq_nil fetcher n x c (w.emit (.spawn x depth c)) c hc
    have h2 := (ext_evs_crawlN fetcher n x c (w.emit (.spawn x depth c))).chan
    have h3 := ihl ((crawlN fetcher n x c (w.emit (.spawn x depth c))).emit (.recv c))
      (lt_of_lt_of_le hc h2)
    simp only [List.filter_append, List.filter_cons, Event.onChan, beq_self_eq_true, if_true,
      h1, h3, spawnWaitInTurn, List.append_nil, List.nil_append, List.cons_append]

/-! ## A crawl with depth left, from the empty map -/

theorem start_trace_eq (fetcher : Fetcher σ) (n : Nat) (url : String) (q : Nat) (fs : σ)
    (chans : Nat) :
    (crawlN fetcher n url q (World.start fs chans)).trace
      = evs (World.start fs chans) (crawlN fetcher n url q (World.start fs chans)) := by
  rw [(ext_evs_crawlN fetcher n url q (World.start fs chans)).trace_eq]
  simp [World.start]

theorem start_fetches_seed (fetcher : Fetcher σ) (n : Nat) (url : String) (q : Nat) (fs : σ)
    (chans : Nat) :
    Event.fetch url (n + 1 : Nat) ∈ (crawlN fetcher (n + 1) url q (World.start fs chans)).trace := by
  rw [start_trace_eq]
  have hg : ((World.start fs chans).p.Get url).2 = false := rfl
  cases he : (resultAt fetcher url (World.start fs chans)).err with
  | some e => rw [evs_crawlN_fail fetcher n url q _ e hg he]; simp
  | none => rw [evs_crawlN_ok fetcher n url q _ hg he]; simp

theorem start_links_fetched (fetcher : Fetcher σ) (n : Nat) (url : String) (q : Nat) (fs : σ)
    (chans : Nat) (u : String) (d : Int) (v : String)
    (hu : Event.fetch u d ∈ (crawlN fetcher n url q (World.start fs chans)).trace)
    (hd : 2 ≤ d) (hl : AlwaysLinks fetcher u v) :
    v ∈ fetchesOf (crawlN fetcher n url q (World.start fs chans)).trace := by
  rw [start_trace_eq] at hu ⊢
  have hm := crawlN_closed fetcher n url q _ u d v hu hd hl
  rcases (ext_evs_crawlN fetcher n url q (World.start fs chans)).mark v rfl with
    ⟨_, h3⟩ | ⟨h3, _⟩
  · exact h3
  · exact absurd h3 hm

/-! ## A failed fetch among siblings -/

/-- In the loop, a child whose `Fetch` fails records its fetch, the report and its
signal; the loop receives the signal and goes on with the remaining URLs. -/
theorem crawlLoop_failed_child (fetcher : Fetcher σ) (fuel : Nat) (u : String)
    (us : List String) (depth : Int) (c : Nat) (w : World σ) (e : String)
    (hd : 0 < depth) (hg : (w.p.Get u).2 = false)
    (he : (fetcher.Fetch w.fs u).1.err = some e) :
    crawlLoop (Crawl fetcher (fuel + 1)) depth c (u :: us) w
      = crawlLoop (Crawl fetcher (fuel + 1)) depth c us
          { p := w.p.Add u, fs := (fetcher.Fetch w.fs u).2, nextChan := w.nextChan,
            trace := w.trace ++ [Event.spawn u depth c, Event.add u, Event.fetch u depth,
              Event.println e, Event.send c, Event.recv c] } := by
  have hd1 : ¬ depth ≤ 0 := by omega
  have hg1 : ((w.emit (Event.spawn u depth c)).p.Get u).2 = false := hg
  simp only [crawlLoop, Crawl, hd1, if_false, hg1, Bool.false_eq_true]
  simp [World.emit, he]

theorem failure_trace (fetcher : Fetcher σ) (seed x y : String) (ex : String)
    (n : Nat) (q : Nat) (fs : σ) (chans : Nat)
    (hsx : seed ≠ x) (hsy : seed ≠ y) (hxy : x ≠ y)
    (hseed : ∀ s, (fetcher.Fetch s seed).1.err = none ∧ (fetcher.Fetch s seed).1.urls = [x, y])
    (hx : ∀ s, (fetcher.Fetch s x).1.err = some ex)
    (hy : ∀ s, (fetcher.Fetch s y).1.err = none) :
    ∃ post, (crawlN fetcher (n + 2) seed q (World.start fs chans)).trace
      = [Event.add seed, Event.fetch seed (n + 2 : Nat),
          Event.found seed (fetcher.Fetch fs seed).1.body, Event.make chans,
          Event.spawn x (n + 1 : Nat) chans, Event.add x, Event.fetch x (n + 1 : Nat),
          Event.println ex, Event.send chans, Event.recv chans,
          Event.spawn y (n + 1 : Nat) chans, Event.add y, Event.fetch y (n + 1 : Nat)]
        ++ post := by
  rw [start_trace_eq]
  have hg0 : ((World.start fs chans).p.Get seed).2 = false := rfl
  have he0 : (resultAt fetcher seed (World.start fs chans)).err = none := (hseed _).1
  have hu0 : (resultAt fetcher seed (World.start fs chans)).urls = [x, y] := (hseed _).2
  have hc0 : (World.start fs chans).nextChan = chans := rfl
  rw [evs_crawlN_ok fetcher (n + 1) seed q _ hg0 he0, hu0, hc0, evs_loopN_cons, evs_loopN_cons,
    evs_loopN_nil]
  have hgx : (((fanOut fetcher seed ((n + 1 + 1 : Nat) : Int) (World.start fs chans)).emit
      (Event.spawn x ((n + 1 : Nat) : Int) chans)).p.Get x).2
      = false := by
    simp [fanOut, fetched, marked, World.emit, World.start, Parallelizer.Get, Parallelizer.Add,
      hsx.symm]
  have hex : (resultAt fetcher x ((fanOut fetcher seed ((n + 1 + 1 : Nat) : Int) (World.start fs chans)).emit
      (Event.spawn x ((n + 1 : Nat) : Int) chans))).err = some ex := hx _
  rw [evs_crawlN_fail fetcher n x chans ((fanOut fetcher seed ((n + 1 + 1 : Nat) : Int) (World.start fs chans)).emit
      (Event.spawn x ((n + 1 : Nat) : Int) chans)) ex hgx hex,
    crawlN_fail_eq fetcher n x chans ((fanOut fetcher seed ((n + 1 + 1 : Nat) : Int) (World.start fs chans)).emit
      (Event.spawn x ((n + 1 : Nat) : Int) chans)) ex hgx hex]
  have hgy : ((((((fetched fetcher x ((n + 1 : Nat) : Int)
      ((fanOut fetcher seed ((n + 1 + 1 : Nat) : Int) (World.start fs chans)).emit
      (Event.spawn x ((n + 1 : Nat) : Int) chans))).emit
      (Event.println ex)).emit (Event.send chans)).emit
      (Event.recv chans)).emit
      (Event.spawn y ((n + 1 : Nat) : Int) chans)).p.Get y).2
      = false := by
    simp [fanOut, fetched, marked, World.emit, World.start, Parallelizer.Get, Parallelizer.Add,
      hsy.symm, hxy.symm]
  have hey : (resultAt fetcher y (((((fetched fetcher x ((n + 1 : Nat) : Int)
      ((fanOut fetcher seed ((n + 1 + 1 : Nat) : Int) (World.start fs chans)).emit
      (Event.spawn x ((n + 1 : Nat) : Int) chans))).emit
      (Event.println ex)).emit (Event.send chans)).emit
      (Event.recv chans)).emit
      (Event.spawn y ((n + 1 : Nat) : Int) chans))).err = none := hy _
  rw [evs_crawlN_ok fetcher n y chans (((((fetched fetcher x ((n + 1 : Nat) : Int)
      ((fanOut fetcher seed ((n + 1 + 1 : Nat) : Int) (World.start fs chans)).emit
      (Event.spawn x ((n + 1 : Nat) : Int) chans))).emit
      (Event.println ex)).emit (Event.send chans)).emit
      (Event.recv chans)).emit
      (Event.spawn y ((n + 1 : Nat) : Int) chans)) hgy hey]
  exact ⟨_, rfl⟩

/-! ## A URL is marked right before it is fetched -/

theorem loopN_add_fetch (fetcher : Fetcher σ) (n : Nat) (depth : Int) (c : Nat)
    (ih : ∀ (url : String) (q : Nat) (w : World σ) (u : String) (d : Int),
      Event.fetch u d ∈ evs w (crawlN fetcher n url q w) →
      [Event.add u, Event.fetch u d] <:+: evs w (crawlN fetcher n url q w))
    (urls : List String) :
    ∀ (w : World σ) (u : String) (d : Int),
      Event.fetch u d ∈ evs w (loopN (crawlN fetcher n) depth c urls w) →
      [Event.add u, Event.fetch u d] <:+: evs w (loopN (crawlN fetcher n) depth c urls w) := by
  induction urls with
  | nil => intro w u d h; simp [evs_loopN_nil] at h
  | cons x xs ihl =>
    intro w u d h
    rw [evs_loopN_cons] at h ⊢
    simp only [List.mem_cons, List.mem_append, false_or, reduceCtorEq] at h
    rcases h with h | h
    · have h1 := ih x c _ u d h
      exact h1.trans ((List.infix_cons (List.infix_refl _)).trans
        (List.prefix_append _ _).isInfix)
    · have h1 := ihl _ u d h
      exact h1.trans ((List.infix_cons (List.infix_refl _)).trans
        (List.suffix_append _ _).isInfix)

theorem crawlN_add_fetch (fetcher : Fetcher σ) :
    ∀ (n : Nat) (url : String) (q : Nat) (w : World σ) (u : String) (d : Int),
      Event.fetch u d ∈ evs w (crawlN fetcher n url q w) →
      [Event.add u, Event.fetch u d] <:+: evs w (crawlN fetcher n url q w) := by
  intro n
  induction n with
  | zero => intro url q w u d h; simp [evs_crawlN_zero] at h
  | succ n ih =>
    intro url q w u d h
    by_cases hg : (w.p.Get url).2 = true
    · simp [evs_crawlN_seen fetcher n url q w hg] at h
    · have hg : (w.p.Get url).2 = false := by simpa using hg
      cases he : (resultAt fetcher url w).err with
      | some e =>
        rw [evs_crawlN_fail fetcher n url q w e hg he] at h ⊢
        simp only [List.mem_cons, Event.fetch.injEq, reduceCtorEq, false_or, List.mem_nil_iff,
          or_false] at h
        obtain ⟨rfl, rfl⟩ := h
        exact List.IsPrefix.isInfix ⟨[Event.println e, Event.send q], rfl⟩
      | none =>
        rw [evs_crawlN_ok fetcher n url q w hg he] at h ⊢
        simp only [List.mem_cons, List.mem_append, Event.fetch.injEq, reduceCtorEq, false_or,
          List.mem_nil_iff, or_false, List.cons_append, List.nil_append] at h
        rcases h with ⟨rfl, rfl⟩ | h
        · exact List.IsPrefix.isInfix ⟨_, rfl⟩
        · have h1 := loopN_add_fetch fetcher n (n : Nat) w.nextChan ih _ _ u d h
          exact h1.trans (List.infix_append _ _ _)

/-! ## Sends, receives and spawns on each channel -/

theorem sendsOn_append (c : Nat) (t1 t2 : List Event) :
    sendsOn c (t1 ++ t2) = sendsOn c t1 + sendsOn c t2 := by
  induction t1 with
  | nil => simp [sendsOn]
  | cons e t ih => cases e <;> simp [sendsOn, ih, Nat.add_assoc]

theorem recvsOn_append (c : Nat) (t1 t2 : List Event) :
    recvsOn c (t1 ++ t2) = recvsOn c t1 + recvsOn c t2 := by
  induction t1 with
  | nil => simp [recvsOn]
  | cons e t ih => cases e <;> simp [recvsOn, ih, Nat.add_assoc]

theorem spawnsOn_append (c : Nat) (t1 t2 : List Event) :
    spawnsOn c (t1 ++ t2) = spawnsOn c t1 + spawnsOn c t2 := by
  induction t1 with
  | nil => simp [spawnsOn]
  | cons e t ih => cases e <;> simp [spawnsOn, ih, Nat.add_assoc]

theorem evs_loopN_cons_app (fetcher : Fetcher σ) (n : Nat) (depth : Int) (c : Nat) (u : String)
    (us : List String) (w : World σ) :
    evs w (loopN (crawlN fetcher n) depth c (u :: us) w)
      = [Event.spawn u depth c]
        ++ evs (w.emit (.spawn u depth c)) (crawlN fetcher n u c (w.emit (.spawn u depth c)))
        ++ [Event.recv c]
        ++ evs ((crawlN fetcher n u c (w.emit (.spawn u depth c))).emit (.recv c))
            (loopN (crawlN fetcher n) depth c us
              ((crawlN fetcher n u c (w.emit (.spawn u depth c))).emit (.recv c))) := by
  rw [evs_loopN_cons]; simp

theorem loopN_signals (fetcher : Fetcher σ) (n : Nat) (depth : Int) (c : Nat)
    (ih : ∀ (url : String) (q : Nat) (w : World σ) (c1 : Nat),
      Signals w.nextChan q c1 (evs w (crawlN fetcher n url q w)))
    (urls : List String) :
    ∀ (w : World σ), c < w.nextChan →
      (∀ c1, sendsOn c1 (evs w (loopN (crawlN fetcher n) depth c urls w))
          = recvsOn c1 (evs w (loopN (crawlN fetcher n) depth c urls w)) ∧
        (c1 < w.nextChan → c1 ≠ c →
          recvsOn c1 (evs w (loopN (crawlN fetcher n) depth c urls w)) = 0 ∧
          spawnsOn c1 (evs w (loopN (crawlN fetcher n) depth c urls w)) = 0)) ∧
      recvsOn c (evs w (loopN (crawlN fetcher n) depth c urls w)) = urls.length ∧
      spawnsOn c (evs w (loopN (crawlN fetcher n) depth c urls w)) = urls.length := by
  induction urls with
  | nil => intro w _; simp [evs_loopN_nil, sendsOn, recvsOn, spawnsOn]
  | cons x xs ihl =>
    intro w hc
    have hchan := (ext_evs_crawlN fetcher n x c (w.emit (.spawn x depth c))).chan
    have hw : (w.emit (Event.spawn x depth c)).nextChan = w.nextChan := rfl
    obtain ⟨h1, h2, h3⟩ := ihl ((crawlN fetcher n x c (w.emit (.spawn x depth c))).emit (.recv c))
      (lt_of_lt_of_le hc hchan)
    have hch := ih x c (w.emit (.spawn x depth c))
    have hcc := (hch c).2 (by rw [hw]; exact hc)
    rw [evs_loopN_cons_app]
    have s1 : ∀ c1, sendsOn c1 [Event.spawn x depth c] = 0 := fun _ => rfl
    have s2 : ∀ c1, sendsOn c1 [Event.recv c] = 0 := fun _ => rfl
    have r1 : ∀ c1, recvsOn c1 [Event.spawn x depth c] = 0 := fun _ => rfl
    have r2 : ∀ c1, recvsOn c1 [Event.recv c] = if c = c1 then 1 else 0 := fun _ => rfl
    have p1 : ∀ c1, spawnsOn c1 [Event.spawn x depth c] = if c = c1 then 1 else 0 :=
      fun _ => rfl
    have p2 : ∀ c1, spawnsOn c1 [Event.recv c] = 0 := fun _ => rfl
    simp only [sendsOn_append, recvsOn_append, spawnsOn_append, s1, s2, r1, r2, p1, p2]
    refine ⟨?_, ?_, ?_⟩
    · intro c1
      obtain ⟨k1, k2⟩ := hch c1
      obtain ⟨m1, m2⟩ := h1 c1
      refine ⟨?_, ?_⟩
      · rw [k1, m1]; omega
      · intro hlt hne
        have hne2 : ¬ c = c1 := fun e => hne e.symm
        obtain ⟨k3, k4⟩ := k2 (by rw [hw]; exact hlt)
        obtain ⟨m3, m4⟩ := m2 (lt_of_lt_of_le hlt hchan) hne
        rw [k3, k4, m3, m4]
        simp [hne2]
    · rw [hcc.1, h2]; simp; omega
    · rw [hcc.2, h3]; simp; omega

theorem crawlN_signals (fetcher : Fetcher σ) :
    ∀ (n : Nat) (url : String) (q : Nat) (w : World σ) (c : Nat),
      Signals w.nextChan q c (evs w (crawlN fetcher n url q w)) := by
  intro n
  induction n with
  | zero => intro url q w c; simp [Signals, evs_crawlN_zero, sendsOn, recvsOn, spawnsOn]
  | succ n ih =>
    intro url q w c
    by_cases hg : (w.p.Get url).2 = true
    · simp [Signals, evs_crawlN_seen fetcher n url q w hg, sendsOn, recvsOn, spawnsOn]
    · have hg : (w.p.Get url).2 = false := by simpa using hg
      cases he : (resultAt fetcher url w).err with
      | some e =>
        simp [Signals, evs_crawlN_fail fetcher n url q w e hg he, sendsOn, recvsOn, spawnsOn]
      | none =>
        rw [evs_crawlN_ok fetcher n url q w hg he]
        have hf : (fanOut fetcher url (n + 1 : Nat) w).nextChan = w.nextChan + 1 := rfl
        obtain ⟨h1, _, _⟩ := loopN_signals fetcher n (n : Nat) w.nextChan ih
          (resultAt fetcher url w).urls (fanOut fetcher url (n + 1 : Nat) w)
          (by rw [hf]; omega)
        obtain ⟨k1, k2⟩ := h1 c
        have s1 : sendsOn c [Event.add url, Event.fetch url (n + 1 : Nat),
            Event.found url (resultAt fetcher url w).body, Event.make w.nextChan] = 0 := rfl
        have r1 : recvsOn c [Event.add url, Event.fetch url (n + 1 : Nat),
            Event.found url (resultAt fetcher url w).body, Event.make w.nextChan] = 0 := rfl
        have p1 : spawnsOn c [Event.add url, Event.fetch url (n + 1 : Nat),
            Event.found url (resultAt fetcher url w).body, Event.make w.nextChan] = 0 := rfl
        have s2 : sendsOn c [Event.send q] = if q = c then 1 else 0 := rfl
        have r2 : recvsOn c [Event.send q] = 0 := rfl
        have p2 : spawnsOn c [Event.send q] = 0 := rfl
        simp only [Signals, sendsOn_append, recvsOn_append, spawnsOn_append, s1, s2, r1, r2,
          p1, p2]
        refine ⟨?_, ?_⟩
        · rw [k1]; omega
        · intro hlt
          obtain ⟨k3, k4⟩ := k2 (by rw [hf]; omega) (by omega)
          rw [k3, k4]
          exact ⟨rfl, rfl⟩

theorem crawlN_send_last (fetcher : Fetcher σ) (n : Nat) (url : String) (q : Nat)
    (w : World σ) :
    ∃ t0, evs w (crawlN fetcher n url q w) = t0 ++ [Event.send q] := by
  cases n with
  | zero => exact ⟨[], by simp [evs_crawlN_zero]⟩
  | succ n =>
    by_cases hg : (w.p.Get url).2 = true
    · exact ⟨[], by simp [evs_crawlN_seen fetcher n url q w hg]⟩
    · have hg : (w.p.Get url).2 = false := by simpa using hg
      cases he : (resultAt fetcher url w).err with
      | some e =>
        exact ⟨[Event.add url, Event.fetch url (n + 1 : Nat), Event.println e],
          by simp [evs_crawlN_fail fetcher n url q w e hg he]⟩
      | none => exact ⟨_, evs_crawlN_ok fetcher n url q w hg he⟩

/-- In the run of `main` every channel has as many sends as receives. -/
theorem main_signals :
    ∃ w2, main 5 = some w2 ∧ ∀ c, sendsOn c w2.trace = recvsOn c w2.trace := by
  have hc := Crawl_eq_crawlN (fakeFetcher fetcher) 5 "https://golang.org/" 4 0
    ((({ World.start () 0 with nextChan := 1 } : World Unit).emit (.make 0)).emit
      (.spawn "https://golang.org/" 4 0)) (by decide)
  refine ⟨_, by simp only [main]; rw [show (World.start () 0).nextChan = 0 from rfl, hc], ?_⟩
  intro c
  have hx := ext_evs_crawlN (fakeFetcher fetcher) (4 : Int).toNat "https://golang.org/" 0
    ((({ World.start () 0 with nextChan := 1 } : World Unit).emit (.make 0)).emit
      (.spawn "https://golang.org/" 4 0))
  have hsig := (crawlN_signals (fakeFetcher fetcher) (4 : Int).toNat "https://golang.org/" 0
    ((({ World.start () 0 with nextChan := 1 } : World Unit).emit (.make 0)).emit
      (.spawn "https://golang.org/" 4 0)) c).1
  have htr : (((crawlN (fakeFetcher fetcher) (4 : Int).toNat "https://golang.org/" 0
      ((({ World.start () 0 with nextChan := 1 } : World Unit).emit (.make 0)).emit
        (.spawn "https://golang.org/" 4 0))).emit (.recv 0)).trace)
      = [Event.make 0, Event.spawn "https://golang.org/" 4 0]
        ++ evs ((({ World.start () 0 with nextChan := 1 } : World Unit).emit (.make 0)).emit
            (.spawn "https://golang.org/" 4 0))
          (crawlN (fakeFetcher fetcher) (4 : Int).toNat "https://golang.org/" 0
            ((({ World.start () 0 with nextChan := 1 } : World Unit).emit (.make 0)).emit
              (.spawn "https://golang.org/" 4 0)))
        ++ [Event.recv 0] := by
    show _ ++ [Event.recv 0] = _
    rw [hx.trace_eq]
    rfl
  rw [htr]
  have s1 : sendsOn c [Event.make 0, Event.spawn "https://golang.org/" 4 0] = 0 := rfl
  have r1 : recvsOn c [Event.make 0, Event.spawn "https://golang.org/" 4 0] = 0 := rfl
  have s2 : sendsOn c [Event.recv 0] = 0 := rfl
  have r2 : recvsOn c [Event.recv 0] = if 0 = c then 1 else 0 := rfl
  simp only [sendsOn_append, recvsOn_append, s1, s2, r1, r2, hsig]
  omega

/-! # The claims -/

/-- C1 (at-most-once fetch): for every fetcher, seed URL, depth and initial contents of
the visited map, `Crawl` returns, and the sequence of `Fetch` calls it made (all child
crawls included) holds no URL twice and no URL that was in the map before the call. -/
theorem crawl_fetches_at_most_once (fetcher : Fetcher σ) (seed : String) (depth : Int)
    (quitChan : Nat) (w : World σ) :
    ∃ w1 t, Crawl fetcher (depth.toNat + 1) seed depth quitChan w = some w1 ∧
      w1.trace = w.trace ++ t ∧
      (fetchesOf t).Nodup ∧
      ∀ u ∈ fetchesOf t, (w.p.Get u).2 = false := by
  obtain ⟨h1, h2⟩ := Crawl_spec fetcher seed depth quitChan w 0
  refine ⟨_, _, h1, h2.trace_eq, h2.nodup, ?_⟩
  intro u hu
  exact (Get_snd_eq_false _ _).2 (h2.fresh u hu)

/-- C3 (depth bound): for every fetcher, seed, depth and initial map, every URL that
`Crawl(seed, maxDepth, ...)` fetches is reached from `seed` by a chain of fewer than
`maxDepth` links, each found on a page fetched in this run and whose `Fetch` succeeds;
so a URL that chains reach only with more than `maxDepth` links is never fetched. -/
theorem crawl_depth_bound (fetcher : Fetcher σ) (seed : String) (maxDepth : Int)
    (quitChan : Nat) (w : World σ) :
    ∃ w1 t, Crawl fetcher (maxDepth.toNat + 1) seed maxDepth quitChan w = some w1 ∧
      w1.trace = w.trace ++ t ∧
      (∀ u ∈ fetchesOf t, ∃ k : Nat, (k : Int) < maxDepth ∧
        Reach fetcher (fun y => y ∈ fetchesOf t) k seed u) ∧
      (∀ u, (∀ k : Nat, Reach fetcher (fun _ => True) k seed u → maxDepth < (k : Int)) →
        u ∉ fetchesOf t) := by
  obtain ⟨h1, h2⟩ := Crawl_spec fetcher seed maxDepth quitChan w 0
  have key : ∀ u ∈ fetchesOf (evs w (crawlN fetcher maxDepth.toNat seed quitChan w)),
      ∃ k : Nat, (k : Int) < maxDepth ∧
        Reach fetcher (fun y => y ∈ fetchesOf
          (evs w (crawlN fetcher maxDepth.toNat seed quitChan w))) k seed u := by
    intro u hu
    obtain ⟨d, hd⟩ := mem_fetchesOf.1 hu
    obtain ⟨k, hk, _, hr⟩ := crawlN_reach fetcher _ seed quitChan w u d hd
    exact ⟨k, by omega, hr⟩
  refine ⟨_, _, h1, h2.trace_eq, key, ?_⟩
  intro u hfar hu
  obtain ⟨k, hk, hr⟩ := key u hu
  have := hfar k (hr.mono (fun _ _ => trivial))
  omega

/-- C4 (termination): for every fetcher (whose `Fetch` returns), URL, integer depth
(negative and zero included) and initial state, `Crawl` returns: a nesting of
`depth.toNat + 1` calls is enough and more changes nothing; every child crawl it
started got a depth argument that is at least 0 and below `depth`. -/
theorem crawl_terminates (fetcher : Fetcher σ) (url : String) (depth : Int)
    (quitChan : Nat) (w : World σ) :
    ∃ w1, (∀ k, Crawl fetcher (depth.toNat + 1 + k) url depth quitChan w = some w1) ∧
      ∀ u d c, Event.spawn u d c ∈ evs w w1 → 0 ≤ d ∧ d < depth := by
  refine ⟨crawlN fetcher depth.toNat url quitChan w,
    fun k => (Crawl_spec fetcher url depth quitChan w k).1, ?_⟩
  intro u d c h
  have := crawlN_spawn_depth fetcher _ url quitChan w u d c h
  omega

/-- C10 (zero depth): for every fetcher, URL, initial state and depth `<= 0`, `Crawl`
leaves the map and the fetcher as they were and records one event only, the send on
`quitChan`: no `Fetch`, `url` not marked, exactly one completion signal. -/
theorem crawl_zero_depth (fetcher : Fetcher σ) (url : String) (depth : Int)
    (quitChan : Nat) (w : World σ) (fuel : Nat) (h : depth ≤ 0) :
    ∃ w1, Crawl fetcher (fuel + 1) url depth quitChan w = some w1 ∧
      w1.p = w.p ∧ w1.fs = w.fs ∧ w1.nextChan = w.nextChan ∧
      w1.trace = w.trace ++ [Event.send quitChan] ∧
      fetchesOf [Event.send quitChan] = [] :=
  ⟨w.emit (.send quitChan), by simp [Crawl, h], rfl, rfl, rfl, rfl, rfl⟩

theorem crawl_zero_depth_witness :
    ∃ w1, Crawl (fakeFetcher abc) 1 "A" 0 0 (World.start () 1) = some w1 ∧
      w1.p = (World.start () 1).p ∧ w1.fs = (World.start () 1).fs ∧
      w1.nextChan = (World.start () 1).nextChan ∧
      w1.trace = (World.start () 1).trace ++ [Event.send 0] ∧
      fetchesOf [Event.send 0] = [] :=
  crawl_zero_depth (fakeFetcher abc) "A" 0 0 (World.start () 1) 0 (by decide)

/-- C2, counterexample: in `A -> [B, C]`, `B -> [C]`, `C -> [D]` with depth 3, `D` is two
links from `A` (`A -> C -> D`, both fetches succeed) and is never fetched: the crawl
reaches `C` first below `B`, with depth 1. -/
theorem bounded_depth_incomplete :
    ∃ w1, Crawl (fakeFetcher dag) 4 "A" 3 0 (World.start () 1) = some w1 ∧
      Reach (fakeFetcher dag) (fun _ => True) 2 "A" "D" ∧
      fetchesOf w1.trace = ["A", "B", "C"] ∧ "D" ∉ fetchesOf w1.trace :=
  have hCD : Links (fakeFetcher dag) "C" "D" := ⟨(), rfl, by decide⟩
  have hAC : Links (fakeFetcher dag) "A" "C" := ⟨(), rfl, by decide⟩
  ⟨_, rfl, Reach.link trivial hAC (Reach.link trivial hCD (Reach.here "D")),
    by decide, by decide⟩

/-- C2, amended: for every fetcher and `maxDepth >= 1`, `Crawl(seed, maxDepth, ...)`
started with an empty map returns, has fetched `seed` (with depth `maxDepth`), and has
fetched every link of every page that it fetched with a depth argument of 2 or more and
whose `Fetch` succeeds. -/
theorem crawl_explores_links (fetcher : Fetcher σ) (seed : String) (maxDepth : Int)
    (quitChan : Nat) (fs : σ) (chans : Nat) (h : 1 ≤ maxDepth) :
    ∃ w1, Crawl fetcher (maxDepth.toNat + 1) seed maxDepth quitChan (World.start fs chans)
        = some w1 ∧
      Event.fetch seed maxDepth ∈ w1.trace ∧
      ∀ u d v, Event.fetch u d ∈ w1.trace → 2 ≤ d → AlwaysLinks fetcher u v →
        v ∈ fetchesOf w1.trace := by
  obtain ⟨h1, _⟩ := Crawl_spec fetcher seed maxDepth quitChan (World.start fs chans) 0
  obtain ⟨n, hn⟩ : ∃ n : Nat, maxDepth.toNat = n + 1 := ⟨maxDepth.toNat - 1, by omega⟩
  have hcast : maxDepth = ((n + 1 : Nat) : Int) := by omega
  refine ⟨_, h1, ?_, ?_⟩
  · rw [hn, hcast]
    exact start_fetches_seed fetcher n seed quitChan fs chans
  · intro u d v hu hd hl
    exact start_links_fetched fetcher _ seed quitChan fs chans u d v hu hd hl

theorem crawl_explores_links_witness :
    ∃ w1, Crawl (fakeFetcher dag) ((3 : Int).toNat + 1) "A" 3 0 (World.start () 1) = some w1 ∧
      Event.fetch "A" 3 ∈ w1.trace ∧
      ∀ u d v, Event.fetch u d ∈ w1.trace → 2 ≤ d → AlwaysLinks (fakeFetcher dag) u v →
        v ∈ fetchesOf w1.trace :=
  crawl_explores_links (fakeFetcher dag) "A" 3 0 () 1 (by decide)

/-- C5, counterexample: in the `A`/`B`/`C` scenario the crawl of `A` finds `[B, C]` and
makes channel 1 for the fan-out; on that channel it spawns `B`, receives, and only
then spawns `C`: a wait lies between the two spawns. -/
theorem spawn_all_then_join_fails :
    ∃ w1, Crawl (fakeFetcher abc) 5 "A" 4 0 (World.start () 1) = some w1 ∧
      w1.trace.filter (Event.onChan 1)
        = [Event.spawn "B" 3 1, Event.recv 1, Event.spawn "C" 3 1, Event.recv 1] :=
  ⟨_, rfl, by decide⟩

/-- C5, amended: for every crawl with depth left whose URL is not yet marked and whose
`Fetch` succeeds, the spawns and receives on the fresh channel `childrenQuit` are, in
order of the discovered URLs: spawn the child crawl of the URL with `depth-1`, receive
its completion signal, then go on to the next URL. -/
theorem crawl_spawns_and_waits_in_turn (fetcher : Fetcher σ) (url : String) (depth : Int)
    (quitChan : Nat) (w : World σ) (hd : 0 < depth) (hg : (w.p.Get url).2 = false)
    (he : (fetcher.Fetch w.fs url).1.err = none) :
    ∃ w1 t, Crawl fetcher (depth.toNat + 1) url depth quitChan w = some w1 ∧
      w1.trace = w.trace ++ t ∧
      t.filter (Event.onChan w.nextChan)
        = spawnWaitInTurn (depth - 1) w.nextChan (fetcher.Fetch w.fs url).1.urls := by
  obtain ⟨h1, h2⟩ := Crawl_spec fetcher url depth quitChan w 0
  refine ⟨_, _, h1, h2.trace_eq, ?_⟩
  obtain ⟨n, hn⟩ : ∃ n : Nat, depth.toNat = n + 1 := ⟨depth.toNat - 1, by omega⟩
  have hcast : depth - 1 = ((n : Nat) : Int) := by omega
  rw [hn, hcast, evs_crawlN_ok fetcher n url quitChan w hg he]
  have h3 := loopN_filter_onChan fetcher n (n : Nat) w.nextChan (resultAt fetcher url w).urls
    (fanOut fetcher url (n + 1 : Nat) w) (Nat.lt_succ_self _)
  simp only [List.filter_append, List.filter_cons, List.filter_nil, Event.onChan, h3,
    List.append_nil, List.nil_append]
  simp [resultAt]

theorem crawl_spawns_and_waits_in_turn_witness :
    ∃ w1 t, Crawl (fakeFetcher abc) ((4 : Int).toNat + 1) "A" 4 0 (World.start () 1) = some w1 ∧
      w1.trace = (World.start () 1).trace ++ t ∧
      t.filter (Event.onChan (World.start () 1).nextChan)
        = spawnWaitInTurn (4 - 1) (World.start () 1).nextChan
            ((fakeFetcher abc).Fetch (World.start () 1).fs "A").1.urls :=
  crawl_spawns_and_waits_in_turn (fakeFetcher abc) "A" 4 0 (World.start () 1)
    (by decide) rfl rfl

/-- C8 (canonical scenario): with a fetcher on which `A` links to `[B, C]`, `B` to
`[A, C]` and `C` to `[A]`, all fetches succeeding, `Crawl("A", 4, ...)` started with an
empty map returns and calls `Fetch` exactly three times: on `A`, on `B` and on `C`. -/
theorem crawl_abc_scenario (fetcher : Fetcher σ) (quitChan : Nat) (fs : σ) (chans : Nat)
    (hA : ∀ s, (fetcher.Fetch s "A").1.err = none ∧ (fetcher.Fetch s "A").1.urls = ["B", "C"])
    (hB : ∀ s, (fetcher.Fetch s "B").1.err = none ∧ (fetcher.Fetch s "B").1.urls = ["A", "C"])
    (hC : ∀ s, (fetcher.Fetch s "C").1.err = none ∧ (fetcher.Fetch s "C").1.urls = ["A"]) :
    ∃ w1, Crawl fetcher 5 "A" 4 quitChan (World.start fs chans) = some w1 ∧
      fetchesOf w1.trace = ["A", "B", "C"] := by
  refine ⟨_, Crawl_eq_crawlN fetcher 5 "A" 4 quitChan _ (by decide), ?_⟩
  have h4 : (4 : Int).toNat = 4 := rfl
  rw [h4]
  simp [crawlN, loopN, fanOut, fetched, marked, resultAt, World.emit, World.start,
    Parallelizer.Get, Parallelizer.Add, hA, hB, hC, fetchesOf]

theorem crawl_abc_scenario_witness :
    ∃ w1, Crawl (fakeFetcher abc) 5 "A" 4 0 (World.start () 1) = some w1 ∧
      fetchesOf w1.trace = ["A", "B", "C"] :=
  crawl_abc_scenario (fakeFetcher abc) 0 () 1
    (fun _ => ⟨rfl, rfl⟩) (fun _ => ⟨rfl, rfl⟩) (fun _ => ⟨rfl, rfl⟩)

/-- C9, counterexample: two successive calls `Crawl("A", 4, ...)` in one process, on the
`A`/`B`/`C` scenario: the first fetches `A`, `B`, `C`, the second finds `A` in the map
and fetches nothing. -/
theorem second_run_differs :
    ∃ w1 w2, Crawl (fakeFetcher abc) 5 "A" 4 0 (World.start () 1) = some w1 ∧
      Crawl (fakeFetcher abc) 5 "A" 4 0 w1 = some w2 ∧
      fetchesOf (evs (World.start () 1) w1) = ["A", "B", "C"] ∧
      fetchesOf (evs w1 w2) = [] :=
  ⟨_, _, rfl, rfl, by decide, by decide⟩

/-- C9, amended: the visited map is the package variable `p`, made empty once when the
process starts and never cleared.  The first top-level `Crawl(seed, depth, ...)` with
`depth >= 1` starts from the empty map and fetches `seed`; a second call with the same
arguments in the same process finds `seed` marked: it calls `Fetch` on nothing, leaves
the map as it is and only sends its completion signal. -/
theorem second_run_fetches_nothing (fetcher : Fetcher σ) (seed : String) (depth : Int)
    (q1 q2 : Nat) (fs : σ) (chans : Nat) (h : 1 ≤ depth) :
    ∃ w1 w2, Crawl fetcher (depth.toNat + 1) seed depth q1 (World.start fs chans) = some w1 ∧
      Crawl fetcher (depth.toNat + 1) seed depth q2 w1 = some w2 ∧
      Event.fetch seed depth ∈ w1.trace ∧
      w2.p = w1.p ∧ w2.trace = w1.trace ++ [Event.send q2] := by
  obtain ⟨n, hn⟩ : ∃ n : Nat, depth.toNat = n + 1 := ⟨depth.toNat - 1, by omega⟩
  have hcast : depth = ((n + 1 : Nat) : Int) := by omega
  have hm := crawlN_marks fetcher n seed q1 (World.start fs chans)
  have hg := (Get_snd_eq_true _ _).2 hm
  refine ⟨crawlN fetcher (n + 1) seed q1 (World.start fs chans),
    (crawlN fetcher (n + 1) seed q1 (World.start fs chans)).emit (.send q2), ?_, ?_, ?_,
    rfl, rfl⟩
  · rw [← hn]; exact Crawl_eq_crawlN fetcher _ seed depth q1 _ (by omega)
  · rw [Crawl_eq_crawlN fetcher _ seed depth q2 _ (by omega), hn,
      crawlN_seen_eq fetcher n seed q2 _ hg]
  · rw [hcast]; exact start_fetches_seed fetcher n seed q1 fs chans

theorem second_run_fetches_nothing_witness :
    ∃ w1 w2, Crawl (fakeFetcher abc) ((4 : Int).toNat + 1) "A" 4 0 (World.start () 1) = some w1 ∧
      Crawl (fakeFetcher abc) ((4 : Int).toNat + 1) "A" 4 0 w1 = some w2 ∧
      Event.fetch "A" 4 ∈ w1.trace ∧
      w2.p = w1.p ∧ w2.trace = w1.trace ++ [Event.send 0] :=
  second_run_fetches_nothing (fakeFetcher abc) "A" 4 0 0 () 1 (by decide)

/-- C7 (failure isolation): for every fetcher and pairwise distinct `seed`, `x`, `y` such
that `Fetch(seed)` succeeds with links `[x, y]`, `Fetch(x)` fails with error `ex` and
`Fetch(y)` succeeds with links `ly`, `Crawl(seed, d, ...)` with `d >= 2` started with an
empty map returns; the child crawl of `x` fetches `x`, prints `ex`, signals and does
nothing else (no spawn below `x`); the loop receives the signal and goes on to `y`,
which is fetched; with `d >= 3` every link of `y` has been fetched when the crawl
returns.  In general a child whose `Fetch` fails records only its fetch, the report and
its signal, and the loop of its parent continues with the next sibling. -/
theorem crawl_failure_isolation (fetcher : Fetcher σ) (seed x y : String) (ex : String)
    (ly : List String) (d : Int) (quitChan : Nat) (fs : σ) (chans : Nat)
    (hsx : seed ≠ x) (hsy : seed ≠ y) (hxy : x ≠ y)
    (hseed : ∀ s, (fetcher.Fetch s seed).1.err = none ∧ (fetcher.Fetch s seed).1.urls = [x, y])
    (hx : ∀ s, (fetcher.Fetch s x).1.err = some ex)
    (hy : ∀ s, (fetcher.Fetch s y).1.err = none ∧ (fetcher.Fetch s y).1.urls = ly)
    (hd : 2 ≤ d) :
    (∃ w1 post, Crawl fetcher (d.toNat + 1) seed d quitChan (World.start fs chans) = some w1 ∧
      w1.trace
        = [Event.add seed, Event.fetch seed d,
            Event.found seed (fetcher.Fetch fs seed).1.body, Event.make chans,
            Event.spawn x (d - 1) chans, Event.add x, Event.fetch x (d - 1),
            Event.println ex, Event.send chans, Event.recv chans,
            Event.spawn y (d - 1) chans, Event.add y, Event.fetch y (d - 1)]
          ++ post ∧
      (3 ≤ d → ∀ v ∈ ly, v ∈ fetchesOf w1.trace)) ∧
    (∀ (fuel : Nat) (u : String) (us : List String) (depth : Int) (c : Nat) (w : World σ)
        (e : String),
      0 < depth → (w.p.Get u).2 = false → (fetcher.Fetch w.fs u).1.err = some e →
      crawlLoop (Crawl fetcher (fuel + 1)) depth c (u :: us) w
        = crawlLoop (Crawl fetcher (fuel + 1)) depth c us
            { p := w.p.Add u, fs := (fetcher.Fetch w.fs u).2, nextChan := w.nextChan,
              trace := w.trace ++ [Event.spawn u depth c, Event.add u, Event.fetch u depth,
                Event.println e, Event.send c, Event.recv c] }) := by
  refine ⟨?_, fun fuel u us depth c w e h1 h2 h3 =>
    crawlLoop_failed_child fetcher fuel u us depth c w e h1 h2 h3⟩
  obtain ⟨n, hn⟩ : ∃ n : Nat, d.toNat = n + 2 := ⟨d.toNat - 2, by omega⟩
  have hcast : d = ((n + 2 : Nat) : Int) := by omega
  have hcast1 : d - 1 = ((n + 1 : Nat) : Int) := by omega
  obtain ⟨post, hpost⟩ := failure_trace fetcher seed x y ex n quitChan fs chans hsx hsy hxy
    hseed hx (fun s => (hy s).1)
  refine ⟨crawlN fetcher (n + 2) seed quitChan (World.start fs chans), post, ?_, ?_, ?_⟩
  · rw [← hn]; exact Crawl_eq_crawlN fetcher _ seed d quitChan _ (by omega)
  · rw [hpost, hcast1, hcast]
  · intro h3 v hv
    refine start_links_fetched fetcher (n + 2) seed quitChan fs chans y (d - 1) v ?_
      (by omega) (fun s => ⟨(hy s).1, by rw [(hy s).2]; exact hv⟩)
    rw [hpost, hcast1]
    simp

theorem crawl_failure_isolation_witness :
    (∃ w1 post, Crawl (fakeFetcher [("A", "a", ["B", "C"]), ("C", "c", ["D"])])
        ((3 : Int).toNat + 1) "A" 3 0 (World.start () 1) = some w1 ∧
      w1.trace
        = [Event.add "A", Event.fetch "A" 3,
            Event.found "A"
              ((fakeFetcher [("A", "a", ["B", "C"]), ("C", "c", ["D"])]).Fetch () "A").1.body,
            Event.make 1,
            Event.spawn "B" (3 - 1) 1, Event.add "B", Event.fetch "B" (3 - 1),
            Event.println "not found: B", Event.send 1, Event.recv 1,
            Event.spawn "C" (3 - 1) 1, Event.add "C", Event.fetch "C" (3 - 1)]
          ++ post ∧
      (3 ≤ (3 : Int) → ∀ v ∈ ["D"], v ∈ fetchesOf w1.trace)) ∧
    (∀ (fuel : Nat) (u : String) (us : List String) (depth : Int) (c : Nat) (w : World Unit)
        (e : String),
      0 < depth → (w.p.Get u).2 = false →
      ((fakeFetcher [("A", "a", ["B", "C"]), ("C", "c", ["D"])]).Fetch w.fs u).1.err = some e →
      crawlLoop (Crawl (fakeFetcher [("A", "a", ["B", "C"]), ("C", "c", ["D"])]) (fuel + 1))
          depth c (u :: us) w
        = crawlLoop (Crawl (fakeFetcher [("A", "a", ["B", "C"]), ("C", "c", ["D"])]) (fuel + 1))
            depth c us
            { p := w.p.Add u,
              fs := ((fakeFetcher [("A", "a", ["B", "C"]), ("C", "c", ["D"])]).Fetch w.fs u).2,
              nextChan := w.nextChan,
              trace := w.trace ++ [Event.spawn u depth c, Event.add u, Event.fetch u depth,
                Event.println e, Event.send c, Event.recv c] }) :=
  crawl_failure_isolation (fakeFetcher [("A", "a", ["B", "C"]), ("C", "c", ["D"])])
    "A" "B" "C" "not found: B" ["D"] 3 0 () 1 (by decide) (by decide) (by decide)
    (fun _ => ⟨rfl, rfl⟩) (fun _ => rfl) (fun _ => ⟨rfl, rfl⟩) (by decide)

/-! ## Tasks that run one after another -/

theorem run_append (url : String) (a b : List Nat) (s : Shared) :
    run url (a ++ b) s = run url b (run url a s) := by
  induction a generalizing s with
  | nil => rfl
  | cons i a ih => simp [run, ih]

/-- A task that runs alone and finds the URL absent marks it and goes on to fetch. -/
theorem run_alone_absent (url : String) (i : Nat) (s : Shared) (hl : s.locked = false)
    (hpc : s.pc i = .getLock) (hv : s.p.v url = none) :
    run url (List.replicate 6 i) s
      = { p := s.p.Add url, locked := false, pc := Function.update s.pc i .fetching } := by
  have hg : (s.p.Get url).2 = false := (Get_snd_eq_false _ _).2 hv
  simp [List.replicate, run, step, hl, hpc, hg, Function.update_same, Function.update_idem]

/-- A task that runs alone and finds the URL present changes nothing but its place. -/
theorem run_alone_present (url : String) (i : Nat) (s : Shared) (hl : s.locked = false)
    (hpc : s.pc i = .getLock) (hv : s.p.v url ≠ none) :
    run url (List.replicate 6 i) s
      = { p := s.p, locked := false, pc := Function.update s.pc i .skipped } := by
  have hg : (s.p.Get url).2 = true := (Get_snd_eq_true _ _).2 hv
  simp [List.replicate, run, step, hl, hpc, hg, Function.update_same, Function.update_idem]

theorem run_serial_present (url : String) (order : List Nat) :
    ∀ (s : Shared), s.locked = false → s.p.v url ≠ none → order.Nodup →
      (∀ i ∈ order, s.pc i = .getLock) →
      (run url (serial order) s).locked = false ∧
      (run url (serial order) s).p = s.p ∧
      ∀ j, (run url (serial order) s).pc j = if j ∈ order then Pc.skipped else s.pc j := by
  induction order with
  | nil => intro s hl _ _ _; simp [serial, run, hl]
  | cons i order ih =>
    intro s hl hv hnd hpc
    have hi := hpc i (List.mem_cons_self _ _)
    rw [serial, run_append, run_alone_present url i s hl hi hv]
    have hnd2 := List.nodup_cons.1 hnd
    obtain ⟨h1, h2, h3⟩ := ih
      { p := s.p, locked := false, pc := Function.update s.pc i .skipped } rfl hv hnd2.2
      (by
        intro j hj
        have hne : j ≠ i := fun e => hnd2.1 (e ▸ hj)
        simp [Function.update, hne, hpc j (List.mem_cons_of_mem _ hj)])
    refine ⟨h1, h2, ?_⟩
    intro j
    rw [h3 j]
    by_cases hj : j ∈ order
    · simp [hj]
    · by_cases hji : j = i
      · subst hji; simp [hj]
      · simp [hj, hji, Function.update]

/-- C6, counterexample: two tasks on a URL that is not in the map, scheduled so that
the second runs its `Get` between the `Get` and the `Add` of the first (every move
allowed by the mutex): both find the URL absent and both go on to fetch. -/
theorem check_then_insert_races :
    (run "u" [0, 0, 0, 1, 1, 1, 0, 0, 0, 1, 1, 1] (Shared.init ⟨fun _ => none⟩)).pc 0
        = Pc.fetching ∧
      (run "u" [0, 0, 0, 1, 1, 1, 0, 0, 0, 1, 1, 1] (Shared.init ⟨fun _ => none⟩)).pc 1
        = Pc.fetching := by
  decide

/-- C6, amended: `Get` and `Add` each run under the mutex, but the check and the insert
are two critical sections.  For every `N >= 1` (the tasks are `0 .. N-1`, `first`
followed by `rest` in any order), when `N` tasks run their check and insert on the same
URL, not yet in the map, one after another (as the tasks of `Crawl` do, each child
being awaited before the next is started), the first finds the URL absent, marks it and
goes on to fetch, and the other `N - 1` find it present. -/
theorem serial_check_insert_exactly_one (url : String) (p : Parallelizer) (N : Nat)
    (first : Nat) (rest : List Nat) (hv : (p.Get url).2 = false)
    (hperm : (first :: rest).Perm (List.range N)) :
    first < N ∧
      (run url (serial (first :: rest)) (Shared.init p)).pc first = Pc.fetching ∧
      (∀ j, j < N → j ≠ first →
        (run url (serial (first :: rest)) (Shared.init p)).pc j = Pc.skipped) ∧
      ((run url (serial (first :: rest)) (Shared.init p)).p.Get url).2 = true ∧
      (run url (serial (first :: rest)) (Shared.init p)).locked = false := by
  have hnd : (first :: rest).Nodup := hperm.nodup_iff.2 (List.nodup_range N)
  have hnd2 := List.nodup_cons.1 hnd
  have hmem : ∀ j, j ∈ first :: rest ↔ j < N := by
    intro j; rw [hperm.mem_iff, List.mem_range]
  have hvn : p.v url = none := (Get_snd_eq_false _ _).1 hv
  rw [serial, run_append, run_alone_absent url first (Shared.init p) rfl rfl hvn]
  have hv1 : (p.Add url).v url ≠ none := by simp [Parallelizer.Add]
  obtain ⟨h1, h2, h3⟩ := run_serial_present url rest
    { p := (Shared.init p).p.Add url, locked := false,
      pc := Function.update (Shared.init p).pc first .fetching } rfl hv1 hnd2.2
    (by
      intro j hj
      have hne : j ≠ first := fun e => hnd2.1 (e ▸ hj)
      simp [Function.update, hne, Shared.init])
  refine ⟨(hmem first).1 (List.mem_cons_self _ _), ?_, ?_, ?_, h1⟩
  · rw [h3 first]; simp [hnd2.1]
  · intro j hj hne
    have : j ∈ rest := by
      rcases List.mem_cons.1 ((hmem j).2 hj) with h | h
      · exact absurd h hne
      · exact h
    rw [h3 j]; simp [this]
  · rw [h2]; exact (Get_snd_eq_true _ _).2 hv1

theorem serial_check_insert_exactly_one_witness :
    1 < 3 ∧
      (run "u" (serial [1, 2, 0]) (Shared.init ⟨fun _ => none⟩)).pc 1 = Pc.fetching ∧
      (∀ j, j < 3 → j ≠ 1 →
        (run "u" (serial [1, 2, 0]) (Shared.init ⟨fun _ => none⟩)).pc j = Pc.skipped) ∧
      ((run "u" (serial [1, 2, 0]) (Shared.init ⟨fun _ => none⟩)).p.Get "u").2 = true ∧
      (run "u" (serial [1, 2, 0]) (Shared.init ⟨fun _ => none⟩)).locked = false :=
  serial_check_insert_exactly_one "u" ⟨fun _ => none⟩ 3 1 [2, 0] rfl (by decide)

/-- C11 (already visited): for every fetcher, depth `>= 1` and URL that is in the map,
`Crawl` leaves the map, the fetcher and the channels as they were and records one event
only, the send on `quitChan`: no `Fetch`, no child, exactly one completion signal. -/
theorem crawl_already_visited (fetcher : Fetcher σ) (url : String) (depth : Int)
    (quitChan : Nat) (w : World σ) (fuel : Nat) (hd : 1 ≤ depth)
    (hv : (w.p.Get url).2 = true) :
    ∃ w1, Crawl fetcher (fuel + 1) url depth quitChan w = some w1 ∧
      w1.p = w.p ∧ w1.fs = w.fs ∧ w1.nextChan = w.nextChan ∧
      w1.trace = w.trace ++ [Event.send quitChan] :=
  ⟨w.emit (.send quitChan), by
    have hd1 : ¬ depth ≤ 0 := by omega
    simp [Crawl, hd1, hv], rfl, rfl, rfl, rfl⟩

theorem crawl_already_visited_witness :
    ∃ w1, Crawl (fakeFetcher abc) (0 + 1) "A" 4 0
        (World.mk ((Parallelizer.mk (fun _ => none)).Add "A") () 1 []) = some w1 ∧
      w1.p = (World.mk ((Parallelizer.mk (fun _ => none)).Add "A") () 1 []).p ∧
      w1.fs = (World.mk ((Parallelizer.mk (fun _ => none)).Add "A") () 1 []).fs ∧
      w1.nextChan = (World.mk ((Parallelizer.mk (fun _ => none)).Add "A") () 1 []).nextChan ∧
      w1.trace
        = (World.mk ((Parallelizer.mk (fun _ => none)).Add "A") () 1 []).trace
          ++ [Event.send 0] :=
  crawl_already_visited (fakeFetcher abc) "A" 4 0
    (World.mk ((Parallelizer.mk (fun _ => none)).Add "A") () 1 []) 0 (by decide) (by decide)

/-- C12 (the visited map only grows): for every fetcher, URL, depth and initial map,
`Crawl` returns and every entry of the map before the call is in the map after it with
the flag it had, so an entry with flag `true` is still there with flag `true`; when all
flags were `true` (as in every map that `Add` built) all flags are `true` afterwards;
`Add` removes no entry and keeps the flag `true`, and `Get` only reads. -/
theorem visited_map_monotonic (fetcher : Fetcher σ) (url : String) (depth : Int)
    (quitChan : Nat) (w : World σ) :
    ∃ w1, Crawl fetcher (depth.toNat + 1) url depth quitChan w = some w1 ∧
      (∀ u, (w.p.Get u).2 = true → w1.p.Get u = w.p.Get u) ∧
      (∀ u, w.p.Get u = (true, true) → w1.p.Get u = (true, true)) ∧
      ((∀ u, (w.p.Get u).2 = true → w.p.Get u = (true, true)) →
        ∀ u, (w1.p.Get u).2 = true → w1.p.Get u = (true, true)) ∧
      (∀ (p : Parallelizer) (k u : String), (p.Get u).2 = true → ((p.Add k).Get u).2 = true) ∧
      (∀ (p : Parallelizer) (k u : String),
        p.Get u = (true, true) → (p.Add k).Get u = (true, true)) := by
  obtain ⟨h1, h2⟩ := Crawl_spec fetcher url depth quitChan w 0
  have hkeep : ∀ u, (w.p.Get u).2 = true →
      (crawlN fetcher depth.toNat url quitChan w).p.Get u = w.p.Get u := by
    intro u hu
    have := h2.keep u ((Get_snd_eq_true _ _).1 hu)
    simp only [Parallelizer.Get, this]
  refine ⟨_, h1, hkeep, ?_, ?_, ?_, ?_⟩
  · intro u hu
    rw [hkeep u (by rw [hu]), hu]
  · intro hall u hu
    by_cases hw : w.p.v u = none
    · rcases h2.mark u hw with ⟨h3, _⟩ | ⟨h3, _⟩
      · simp [Parallelizer.Get, h3]
      · exact absurd h3 ((Get_snd_eq_true _ _).1 hu)
    · have hwu := (Get_snd_eq_true _ _).2 hw
      rw [hkeep u hwu]
      exact hall u hwu
  · intro p k u hu
    rw [Get_snd_eq_true] at hu ⊢
    simp only [Parallelizer.Add]
    split
    · simp
    · exact hu
  · intro p k u hu
    have hv : p.v u = some true := by
      simp only [Parallelizer.Get] at hu
      cases hpu : p.v u with
      | none => rw [hpu] at hu; simp at hu
      | some b => rw [hpu] at hu; simp at hu; rw [hu]
    by_cases hk : u = k
    · simp [Parallelizer.Get, Parallelizer.Add, hk]
    · simp [Parallelizer.Get, Parallelizer.Add, hk, hv]

/-- C16 (exact effect on the visited map): for every fetcher, URL, depth and initial map,
`Crawl` returns, and a URL is in the map afterwards exactly when it was there before or
was fetched during the call; every `Fetch(u)` comes right after `Add(u)`; a fetched URL,
whether its `Fetch` failed or not, stays in the map and no later crawl fetches it. -/
theorem visited_map_effect (fetcher : Fetcher σ) (url : String) (depth : Int)
    (quitChan : Nat) (w : World σ) :
    ∃ w1 t, Crawl fetcher (depth.toNat + 1) url depth quitChan w = some w1 ∧
      w1.trace = w.trace ++ t ∧
      (∀ u, (w1.p.Get u).2 = true ↔ ((w.p.Get u).2 = true ∨ u ∈ fetchesOf t)) ∧
      (∀ u d, Event.fetch u d ∈ t → [Event.add u, Event.fetch u d] <:+: t) ∧
      (∀ u ∈ fetchesOf t, ∀ (url2 : String) (depth2 : Int) (q2 : Nat),
        ∃ w2 t2, Crawl fetcher (depth2.toNat + 1) url2 depth2 q2 w1 = some w2 ∧
          w2.trace = w1.trace ++ t2 ∧ u ∉ fetchesOf t2 ∧ (w2.p.Get u).2 = true) := by
  obtain ⟨h1, h2⟩ := Crawl_spec fetcher url depth quitChan w 0
  refine ⟨_, _, h1, h2.trace_eq, ?_, ?_, ?_⟩
  · intro u
    rw [Get_snd_eq_true, Get_snd_eq_true]
    constructor
    · intro hu
      by_cases hw : w.p.v u = none
      · rcases h2.mark u hw with ⟨_, h3⟩ | ⟨h3, _⟩
        · exact Or.inr h3
        · exact absurd h3 hu
      · exact Or.inl hw
    · rintro (hw | hf)
      · rw [h2.keep u hw]; exact hw
      · rcases h2.mark u (h2.fresh u hf) with ⟨h3, _⟩ | ⟨_, h3⟩
        · rw [h3]; simp
        · exact absurd hf h3
  · intro u d hu
    exact crawlN_add_fetch fetcher _ url quitChan w u d hu
  · intro u hu url2 depth2 q2
    obtain ⟨k1, k2⟩ := Crawl_spec fetcher url2 depth2 q2
      (crawlN fetcher depth.toNat url quitChan w) 0
    have hm : (crawlN fetcher depth.toNat url quitChan w).p.v u ≠ none := by
      rcases h2.mark u (h2.fresh u hu) with ⟨h3, _⟩ | ⟨_, h3⟩
      · rw [h3]; simp
      · exact absurd hu h3
    refine ⟨_, _, k1, k2.trace_eq, ?_, ?_⟩
    · intro hu2
      exact hm (k2.fresh u hu2)
    · rw [Get_snd_eq_true, k2.keep u hm]; exact hm

/-- C15 (completion signals are balanced): for every fetcher, URL, depth, state and
existing channel `quitChan`, `Crawl` returns and its events are some `t0` followed by
the send on `quitChan`; `t0` holds no send on `quitChan` and no receive from it, so the
crawl signals exactly once, on every path, as its last action; on every other channel
`t0` holds as many sends as receives; it receives from, and spawns on, no channel that
existed before; and when the fetch succeeds with `k` URLs, `t0` holds exactly `k` spawns
on the new channel `childrenQuit`, `k` sends on it and `k` receives from it.  In the run
of `main` every channel has as many sends as receives. -/
theorem completion_signals_balanced (fetcher : Fetcher σ) (url : String) (depth : Int)
    (quitChan : Nat) (w : World σ) (hq : quitChan < w.nextChan) :
    (∃ w1 t0, Crawl fetcher (depth.toNat + 1) url depth quitChan w = some w1 ∧
      w1.trace = w.trace ++ t0 ++ [Event.send quitChan] ∧
      sendsOn quitChan t0 = 0 ∧ recvsOn quitChan t0 = 0 ∧
      (∀ c, c ≠ quitChan → sendsOn c t0 = recvsOn c t0) ∧
      (∀ c, c < w.nextChan → recvsOn c t0 = 0 ∧ spawnsOn c t0 = 0) ∧
      (0 < depth → (w.p.Get url).2 = false → (fetcher.Fetch w.fs url).1.err = none →
        spawnsOn w.nextChan t0 = (fetcher.Fetch w.fs url).1.urls.length ∧
        sendsOn w.nextChan t0 = (fetcher.Fetch w.fs url).1.urls.length ∧
        recvsOn w.nextChan t0 = (fetcher.Fetch w.fs url).1.urls.length)) ∧
    (∃ w2, main 5 = some w2 ∧ ∀ c, sendsOn c w2.trace = recvsOn c w2.trace) := by
  constructor
  · obtain ⟨h1, h2⟩ := Crawl_spec fetcher url depth quitChan w 0
    obtain ⟨t0, ht0⟩ := crawlN_send_last fetcher depth.toNat url quitChan w
    have hsig := crawlN_signals fetcher depth.toNat url quitChan w
    rw [ht0] at hsig
    have s2 : ∀ c, sendsOn c [Event.send quitChan] = if quitChan = c then 1 else 0 :=
      fun _ => rfl
    have r2 : ∀ c, recvsOn c [Event.send quitChan] = 0 := fun _ => rfl
    have p2 : ∀ c, spawnsOn c [Event.send quitChan] = 0 := fun _ => rfl
    simp only [Signals, sendsOn_append, recvsOn_append, spawnsOn_append, s2, r2, p2,
      Nat.add_zero] at hsig
    have hold : ∀ c, c < w.nextChan → recvsOn c t0 = 0 ∧ spawnsOn c t0 = 0 :=
      fun c hc => (hsig c).2 hc
    refine ⟨_, t0, h1, ?_, ?_, (hold quitChan hq).1, ?_, hold, ?_⟩
    · rw [h2.trace_eq, ht0, List.append_assoc]
    · have := (hsig quitChan).1
      rw [(hold quitChan hq).1] at this
      simpa using this
    · intro c hc
      have := (hsig c).1
      have hne : ¬ quitChan = c := fun e => hc e.symm
      simpa [hne] using this
    · intro hd hg he
      obtain ⟨n, hn⟩ : ∃ n : Nat, depth.toNat = n + 1 := ⟨depth.toNat - 1, by omega⟩
      rw [hn, evs_crawlN_ok fetcher n url quitChan w hg he] at ht0
      have ht : t0 = [Event.add url, Event.fetch url (n + 1 : Nat),
          Event.found url (resultAt fetcher url w).body, Event.make w.nextChan]
          ++ evs (fanOut fetcher url (n + 1 : Nat) w)
            (loopN (crawlN fetcher n) (n : Nat) w.nextChan (resultAt fetcher url w).urls
              (fanOut fetcher url (n + 1 : Nat) w)) :=
        (List.append_inj_left' ht0 rfl).symm
      obtain ⟨k1, k2, k3⟩ := loopN_signals fetcher n (n : Nat) w.nextChan
        (crawlN_signals fetcher n) (resultAt fetcher url w).urls
        (fanOut fetcher url (n + 1 : Nat) w) (Nat.lt_succ_self _)
      have s1 : sendsOn w.nextChan [Event.add url, Event.fetch url (n + 1 : Nat),
          Event.found url (resultAt fetcher url w).body, Event.make w.nextChan] = 0 := rfl
      have r1 : recvsOn w.nextChan [Event.add url, Event.fetch url (n + 1 : Nat),
          Event.found url (resultAt fetcher url w).body, Event.make w.nextChan] = 0 := rfl
      have p1 : spawnsOn w.nextChan [Event.add url, Event.fetch url (n + 1 : Nat),
          Event.found url (resultAt fetcher url w).body, Event.make w.nextChan] = 0 := rfl
      rw [ht]
      simp only [sendsOn_append, recvsOn_append, spawnsOn_append, s1, r1, p1, Nat.zero_add]
      exact ⟨k3, by rw [(k1 w.nextChan).1]; exact k2, k2⟩
  · exact main_signals

theorem completion_signals_balanced_witness :
    (∃ w1 t0, Crawl (fakeFetcher abc) ((4 : Int).toNat + 1) "A" 4 0 (World.start () 1)
        = some w1 ∧
      w1.trace = (World.start () 1).trace ++ t0 ++ [Event.send 0] ∧
      sendsOn 0 t0 = 0 ∧ recvsOn 0 t0 = 0 ∧
      (∀ c, c ≠ 0 → sendsOn c t0 = recvsOn c t0) ∧
      (∀ c, c < (World.start () 1).nextChan → recvsOn c t0 = 0 ∧ spawnsOn c t0 = 0) ∧
      (0 < (4 : Int) → ((World.start () 1).p.Get "A").2 = false →
        ((fakeFetcher abc).Fetch (World.start () 1).fs "A").1.err = none →
        spawnsOn (World.start () 1).nextChan t0
          = ((fakeFetcher abc).Fetch (World.start () 1).fs "A").1.urls.length ∧
        sendsOn (World.start () 1).nextChan t0
          = ((fakeFetcher abc).Fetch (World.start () 1).fs "A").1.urls.length ∧
        recvsOn (World.start () 1).nextChan t0
          = ((fakeFetcher abc).Fetch (World.start () 1).fs "A").1.urls.length)) ∧
    (∃ w2, main 5 = some w2 ∧ ∀ c, sendsOn c w2.trace = recvsOn c w2.trace) :=
  completion_signals_balanced (fakeFetcher abc) "A" 4 0 (World.start () 1) (by decide)

/-- C18 (the built-in run): `Crawl("https://golang.org/", 4, fetcher, _)` on the canned
fetcher, started with an empty map, returns and calls `Fetch` five times, on
`https://golang.org/`, `https://golang.org/pkg/`, `https://golang.org/cmd/`,
`https://golang.org/pkg/fmt/` and `https://golang.org/pkg/os/` in this order; it prints
four `found` lines and, in third place, the one error
`not found: https://golang.org/cmd/`.  The run of `main` does the same. -/
theorem fixture_run :
    (∃ w1, Crawl (fakeFetcher fetcher) 5 "https://golang.org/" 4 0 (World.start () 1)
        = some w1 ∧
      fetchesOf w1.trace
        = ["https://golang.org/", "https://golang.org/pkg/", "https://golang.org/cmd/",
            "https://golang.org/pkg/fmt/", "https://golang.org/pkg/os/"] ∧
      reportsOf w1.trace
        = [Event.found "https://golang.org/" "The Go Programming Language",
            Event.found "https://golang.org/pkg/" "Packages",
            Event.println "not found: https://golang.org/cmd/",
            Event.found "https://golang.org/pkg/fmt/" "Package fmt",
            Event.found "https://golang.org/pkg/os/" "Package os"]) ∧
    (∃ w2, main 5 = some w2 ∧
      fetchesOf w2.trace
        = ["https://golang.org/", "https://golang.org/pkg/", "https://golang.org/cmd/",
            "https://golang.org/pkg/fmt/", "https://golang.org/pkg/os/"] ∧
      reportsOf w2.trace
        = [Event.found "https://golang.org/" "The Go Programming Language",
            Event.found "https://golang.org/pkg/" "Packages",
            Event.println "not found: https://golang.org/cmd/",
            Event.found "https://golang.org/pkg/fmt/" "Package fmt",
            Event.found "https://golang.org/pkg/os/" "Package os"]) :=
  ⟨⟨_, rfl, by decide, by decide⟩, ⟨_, rfl, by decide, by decide⟩⟩

end WebCrawler

namespace WalkTree

/-! # Properties of the tree walk -/

theorem Walk_eq (t : Tree) : ∀ sent, Walk t sent = sent ++ inorder t := by
  induction t with
  | nil => intro sent; simp [Walk, inorder]
  | node l v r ihl ihr => intro sent; simp [Walk, inorder, ihl, ihr]

theorem length_inorder (t : Tree) : (inorder t).length = size t := by
  induction t with
  | nil => rfl
  | node l v r ihl ihr => simp [inorder, size, ihl, ihr]; omega

theorem sorted_inorder (t : Tree) (h : IsBST t) : (inorder t).Sorted (fun a b => a ≤ b) := by
  induction t with
  | nil => simp [inorder]
  | node l v r ihl ihr =>
    obtain ⟨h1, h2, h3, h4⟩ := h
    simp only [inorder, List.Sorted, List.pairwise_append, List.pairwise_cons, List.mem_cons]
    refine ⟨ihl h3, ⟨h2, ihr h4⟩, ?_⟩
    intro a ha b hb
    rcases hb with rfl | hb
    · exact h1 a ha
    · exact le_trans (h1 a ha) (h2 b hb)

theorem sameLoop_false_iff (a : List Int) :
    ∀ b : List Int, sameLoop a b = false ↔
      ∃ i, i < min a.length b.length ∧ a[i]? ≠ b[i]? := by
  induction a with
  | nil => intro b; simp [sameLoop]
  | cons x xs ih =>
    intro b
    cases b with
    | nil => simp [sameLoop]
    | cons y ys =>
      by_cases hxy : x = y
      · subst hxy
        simp only [sameLoop, ne_eq, not_true_eq_false, if_false, ih ys, List.length_cons]
        constructor
        · rintro ⟨i, hi, hne⟩
          exact ⟨i + 1, by omega, by simpa using hne⟩
        · rintro ⟨i, hi, hne⟩
          cases i with
          | zero => simp at hne
          | succ i => exact ⟨i, by omega, by simpa using hne⟩
      · simp only [sameLoop, ne_eq, hxy, not_false_eq_true, if_true, true_iff]
        exact ⟨0, by simp, by simpa using hxy⟩

theorem sameLoop_comm (a : List Int) : ∀ b : List Int, sameLoop a b = sameLoop b a := by
  induction a with
  | nil => intro b; cases b <;> simp [sameLoop]
  | cons x xs ih =>
    intro b
    cases b with
    | nil => simp [sameLoop]
    | cons y ys =>
      by_cases hxy : x = y
      · subst hxy; simp [sameLoop, ih ys]
      · have hyx : ¬ y = x := fun e => hxy e.symm
        simp [sameLoop, hxy, hyx]

theorem sameLoop_of_prefix (a : List Int) :
    ∀ b : List Int, a <+: b → sameLoop a b = true := by
  induction a with
  | nil => intro b _; simp [sameLoop]
  | cons x xs ih =>
    intro b h
    cases b with
    | nil => simp [sameLoop]
    | cons y ys =>
      obtain ⟨rfl, h2⟩ := List.cons_prefix_cons.1 h
      simp [sameLoop, ih ys h2]

/-! # The claims on the tree walk -/

/-- C13, the code at the failing input: `Same` answers `true` for the empty tree and a
tree with the one value 1, which do not hold the same values. -/
theorem same_of_different_sizes :
    Same Tree.nil (Tree.node Tree.nil 1 Tree.nil) = true ∧
      inorder Tree.nil ≠ inorder (Tree.node Tree.nil 1 Tree.nil) := by
  decide

/-- C14 (`Walk` sends all values in order): for every tree `t`, `Walk(t, ch)` adds to what
was sent on `ch` exactly the values of `t` in order (left subtree, value of the node,
right subtree): one value per node, nothing for the `nil` tree, and in ascending order
when `t` is a binary search tree. -/
theorem walk_sends_inorder (t : Tree) (sent : List Int) :
    Walk t sent = sent ++ inorder t ∧
      Walk t [] = inorder t ∧
      (Walk t []).length = size t ∧
      Walk Tree.nil sent = sent ∧
      (IsBST t → (Walk t []).Sorted (fun a b => a ≤ b)) := by
  refine ⟨Walk_eq t sent, by simp [Walk_eq], by simp [Walk_eq, length_inorder], rfl, ?_⟩
  intro h
  rw [Walk_eq]
  simpa using sorted_inorder t h

theorem walk_sends_inorder_witness :
    IsBST (Tree.node (Tree.node Tree.nil 1 Tree.nil) 2 (Tree.node Tree.nil 3 Tree.nil)) ∧
      Walk (Tree.node (Tree.node Tree.nil 1 Tree.nil) 2 (Tree.node Tree.nil 3 Tree.nil)) []
        = [1, 2, 3] ∧
      (Walk (Tree.node (Tree.node Tree.nil 1 Tree.nil) 2 (Tree.node Tree.nil 3 Tree.nil))
        []).Sorted (fun a b => a ≤ b) :=
  ⟨by simp [IsBST, inorder], by decide,
    (walk_sends_inorder
      (Tree.node (Tree.node Tree.nil 1 Tree.nil) 2 (Tree.node Tree.nil 3 Tree.nil)) []).2.2.2.2
      (by simp [IsBST, inorder])⟩

/-- C17 (`Same` compares the common prefix): for all trees `t1`, `t2` with in-order value
sequences `s1`, `s2`, `Same(t1, t2)` is `false` exactly when some index below both
lengths holds different values in `s1` and `s2`; so it is `true` when one sequence is a
prefix of the other, in particular when either tree is `nil`; `Same` is reflexive and
symmetric. -/
theorem same_compares_common_prefix (t1 t2 : Tree) :
    (Same t1 t2 = false ↔
      ∃ i, i < min (inorder t1).length (inorder t2).length ∧
        (inorder t1)[i]? ≠ (inorder t2)[i]?) ∧
      (inorder t1 <+: inorder t2 → Same t1 t2 = true) ∧
      (inorder t2 <+: inorder t1 → Same t1 t2 = true) ∧
      Same Tree.nil t2 = true ∧ Same t1 Tree.nil = true ∧
      Same t1 t1 = true ∧
      Same t1 t2 = Same t2 t1 := by
  have hS : ∀ a b : Tree, Same a b = sameLoop (inorder a) (inorder b) := by
    intro a b; simp [Same, Walk_eq]
  refine ⟨?_, ?_, ?_, ?_, ?_, ?_, ?_⟩
  · rw [hS]; exact sameLoop_false_iff _ _
  · intro h; rw [hS]; exact sameLoop_of_prefix _ _ h
  · intro h; rw [hS, sameLoop_comm]; exact sameLoop_of_prefix _ _ h
  · rw [hS]; exact sameLoop_of_prefix _ _ (by simp [inorder])
  · rw [hS, sameLoop_comm]; exact sameLoop_of_prefix _ _ (by simp [inorder])
  · rw [hS]; exact sameLoop_of_prefix _ _ (List.prefix_refl _)
  · rw [hS, hS]; exact sameLoop_comm _ _

end WalkTree
